import Mathlib

/-!
# Chess rules engine: shallow embedding of `main.go`

The Go program keeps an 8×8 grid of optional pieces, enumerates the candidate
destinations of each piece kind, relocates pieces and detects a captured king.
This file embeds those operations as Lean functions and proves the properties
the specification states about them.

Conventions of the embedding:

* `Color` is the Go string type with its two declared constants `White` and
  `Black`; it is embedded as a two-constructor enumeration.
* Go `int` coordinates are embedded as `Int`.  Every addition in the
  candidate-move functions adds an offset in `[-2, 2]` to a coordinate and the
  sum is used only after an `IsWithinBounds` test, or adds to a coordinate
  already tested to be in `[0, 7]`; a wrapped 64-bit sum is in `[0, 7]` only
  when the exact sum is (lemma `wrap64_within_iff`), so wrap-around cannot
  change any result.
* The Go interface value `Piece` (possibly `nil`) is `Option Piece`.
* A Go string is the list of its bytes.  The functions of the packages
  `strings`, `strconv` and `fmt` that the parser calls are embedded from the
  documentation of the Go standard library; a returned `error` is an `Except`
  or an `Option`.
* Methods with a pointer receiver that mutate their receiver return the new
  value.  Console output is not modelled.
-/

set_option autoImplicit false

namespace ChessLogic

/-! ## Data model -/

/-- Colour of a piece: the constants `White` and `Black` of the Go type `Color`. -/
inductive Color where
  | White : Color
  | Black : Color
deriving DecidableEq

/-- A (row, column) coordinate; the Go struct `Position`. -/
structure Position where
  Row : Int
  Col : Int
deriving DecidableEq

/-- The six piece structs of the source, each carrying its colour. -/
inductive Piece where
  | King (color : Color) : Piece
  | Queen (color : Color) : Piece
  | Rook (color : Color) : Piece
  | Bishop (color : Color) : Piece
  | Knight (color : Color) : Piece
  | Pawn (color : Color) : Piece
deriving DecidableEq

/-- The method `GetColor` of every piece struct. -/
def Piece.GetColor : Piece → Color
  | Piece.King c => c
  | Piece.Queen c => c
  | Piece.Rook c => c
  | Piece.Bishop c => c
  | Piece.Knight c => c
  | Piece.Pawn c => c

/-- The Go struct `Board`: `grid [8][8]Piece`, a `nil` cell being `none`. -/
structure Board where
  grid : Fin 8 → Fin 8 → Option Piece

/-- The zero value `Board{}`: every cell is `nil`. -/
def Board.zero : Board := ⟨fun _ _ => none⟩

/-- The method `IsWithinBounds`; its receiver is unused in the source. -/
def Board.IsWithinBounds (row col : Int) : Bool :=
  decide (row ≥ 0) && decide (row < 8) && decide (col ≥ 0) && decide (col < 8)

/-- An in-range Go index as an index of the 8-element array. -/
def Board.index (x : Int) (h0 : 0 ≤ x) (h8 : x < 8) : Fin 8 :=
  ⟨x.toNat, by omega⟩

/-- The method `GetPiece`: `nil` for an out-of-bounds position, else the cell. -/
def Board.GetPiece (b : Board) (pos : Position) : Option Piece :=
  if h : (0 ≤ pos.Row ∧ pos.Row < 8) ∧ (0 ≤ pos.Col ∧ pos.Col < 8) then
    b.grid (Board.index pos.Row h.1.1 h.1.2) (Board.index pos.Col h.2.1 h.2.2)
  else none

/-- The array assignment `b.grid[row][col] = piece`. -/
def Board.assign (b : Board) (row col : Fin 8) (piece : Option Piece) : Board :=
  ⟨fun r c => if r = row ∧ c = col then piece else b.grid r c⟩

/-- The method `SetPiece`: no effect out of bounds, else overwrites the cell. -/
def Board.SetPiece (b : Board) (pos : Position) (piece : Option Piece) : Board :=
  if h : (0 ≤ pos.Row ∧ pos.Row < 8) ∧ (0 ≤ pos.Col ∧ pos.Col < 8) then
    b.assign (Board.index pos.Row h.1.1 h.1.2) (Board.index pos.Col h.2.1 h.2.2) piece
  else b

/-- The method `MovePiece`: the board after the call and the returned piece. -/
def Board.MovePiece (b : Board) (start endPos : Position) : Board × Option Piece :=
  match b.GetPiece start with
  | none => (b, none)
  | some piece =>
    let captured := b.GetPiece endPos
    (((b.SetPiece endPos (some piece)).SetPiece start none), captured)

/-- The method `InitializeBoard`: the pawn loop, then the sixteen assignments. -/
def Board.InitializeBoard (b : Board) : Board :=
  let b := (List.finRange 8).foldl
    (fun b col => (b.assign 1 col (some (Piece.Pawn Color.White))).assign 6 col
      (some (Piece.Pawn Color.Black))) b
  let b := b.assign 0 0 (some (Piece.Rook Color.White))
  let b := b.assign 0 7 (some (Piece.Rook Color.White))
  let b := b.assign 7 0 (some (Piece.Rook Color.Black))
  let b := b.assign 7 7 (some (Piece.Rook Color.Black))
  let b := b.assign 0 1 (some (Piece.Knight Color.White))
  let b := b.assign 0 6 (some (Piece.Knight Color.White))
  let b := b.assign 7 1 (some (Piece.Knight Color.Black))
  let b := b.assign 7 6 (some (Piece.Knight Color.Black))
  let b := b.assign 0 2 (some (Piece.Bishop Color.White))
  let b := b.assign 0 5 (some (Piece.Bishop Color.White))
  let b := b.assign 7 2 (some (Piece.Bishop Color.Black))
  let b := b.assign 7 5 (some (Piece.Bishop Color.Black))
  let b := b.assign 0 3 (some (Piece.Queen Color.White))
  let b := b.assign 7 3 (some (Piece.Queen Color.Black))
  let b := b.assign 0 4 (some (Piece.King Color.White))
  let b := b.assign 7 4 (some (Piece.King Color.Black))
  b

/-! ## Candidate moves -/

/-- The test `target == nil || target.GetColor() != color` of the source. -/
def freeOrEnemy (color : Color) (target : Option Piece) : Bool :=
  match target with
  | none => true
  | some t => t.GetColor != color

/-- The loop shared by `King.GetValidMoves` and `Knight.GetValidMoves`: for each
offset in order, the destination is appended when it is within bounds and its
cell is `nil` or holds another colour. -/
def stepMoves (color : Color) (position : Position) (board : Board)
    (deltas : List Position) : List Position :=
  deltas.foldl
    (fun moves d =>
      let newRow := position.Row + d.Row
      let newCol := position.Col + d.Col
      if Board.IsWithinBounds newRow newCol then
        if freeOrEnemy color (board.GetPiece ⟨newRow, newCol⟩) then
          moves ++ [⟨newRow, newCol⟩]
        else moves
      else moves)
    []

/-- The `directions` literal of `King.GetValidMoves`. -/
def kingDirections : List Position :=
  [⟨-1, -1⟩, ⟨-1, 0⟩, ⟨-1, 1⟩, ⟨0, -1⟩, ⟨0, 1⟩, ⟨1, -1⟩, ⟨1, 0⟩, ⟨1, 1⟩]

/-- The `directions` literal of `Queen.GetValidMoves`. -/
def queenDirections : List Position :=
  [⟨-1, -1⟩, ⟨-1, 0⟩, ⟨-1, 1⟩, ⟨0, -1⟩, ⟨0, 1⟩, ⟨1, -1⟩, ⟨1, 0⟩, ⟨1, 1⟩]

/-- The `directions` literal of `Rook.GetValidMoves`. -/
def rookDirections : List Position :=
  [⟨-1, 0⟩, ⟨0, -1⟩, ⟨0, 1⟩, ⟨1, 0⟩]

/-- The `directions` literal of `Bishop.GetValidMoves`. -/
def bishopDirections : List Position :=
  [⟨-1, -1⟩, ⟨-1, 1⟩, ⟨1, -1⟩, ⟨1, 1⟩]

/-- The `deltas` literal of `Knight.GetValidMoves`. -/
def knightDeltas : List Position :=
  [⟨-2, -1⟩, ⟨-2, 1⟩, ⟨-1, -2⟩, ⟨-1, 2⟩, ⟨1, -2⟩, ⟨1, 2⟩, ⟨2, -1⟩, ⟨2, 1⟩]

/-- The inner `for { ... }` loop of the sliding pieces, started with
`(newRow, newCol) = (row, col)`: the squares it appends, in order.  Each unit of
fuel pays for one iteration; `none` means the fuel ran out before the loop
reached a `break`. -/
def slideLoop (board : Board) (color : Color) (dRow dCol : Int) :
    Nat → Int → Int → Option (List Position)
  | 0, _, _ => none
  | fuel + 1, row, col =>
    let newRow := row + dRow
    let newCol := col + dCol
    if Board.IsWithinBounds newRow newCol then
      match board.GetPiece ⟨newRow, newCol⟩ with
      | none =>
        (slideLoop board color dRow dCol fuel newRow newCol).map
          (fun rest => (⟨newRow, newCol⟩ : Position) :: rest)
      | some target =>
        if target.GetColor != color then some [⟨newRow, newCol⟩] else some []
    else some []

/-- Iterations granted to the inner loop.  Nine always suffice: after the first
step the square is on the board, and a unit step leaves an 8-wide board within
eight more (theorem `slideLoop_terminates`). -/
def slideFuel : Nat := 9

/-- The outer loop shared by the queen, rook and bishop: the squares of each
direction's ray, in the order of the `directions` literal. -/
def slideMoves (color : Color) (position : Position) (board : Board)
    (directions : List Position) : List Position :=
  directions.foldl
    (fun moves d =>
      moves ++ (slideLoop board color d.Row d.Col slideFuel position.Row position.Col).getD [])
    []

/-- The forward part of `Pawn.GetValidMoves`: the single step, and nested in it
the double step from the starting row. -/
def pawnForward (position : Position) (board : Board) (direction startRow : Int) :
    List Position :=
  let newRow := position.Row + direction
  if Board.IsWithinBounds newRow position.Col
      && (board.GetPiece ⟨newRow, position.Col⟩).isNone then
    [(⟨newRow, position.Col⟩ : Position)] ++
      (if position.Row = startRow then
        let newRow2 := newRow + direction
        if (board.GetPiece ⟨newRow2, position.Col⟩).isNone then
          [(⟨newRow2, position.Col⟩ : Position)]
        else []
      else [])
  else []

/-- The capture loop of `Pawn.GetValidMoves` over `dc` in `[-1, 1]`. -/
def pawnCaptures (color : Color) (position : Position) (board : Board) (direction : Int) :
    List Position :=
  let newRow := position.Row + direction
  ([-1, 1] : List Int).foldl
    (fun moves dc =>
      let newCol := position.Col + dc
      if Board.IsWithinBounds newRow newCol then
        match board.GetPiece ⟨newRow, newCol⟩ with
        | some target =>
          if target.GetColor != color then moves ++ [⟨newRow, newCol⟩] else moves
        | none => moves
      else moves)
    []

/-- The value of `direction` in `Pawn.GetValidMoves`. -/
def pawnDirection (color : Color) : Int :=
  if color = Color.Black then -1 else 1

/-- The value of `startRow` in `Pawn.GetValidMoves`. -/
def pawnStartRow (color : Color) : Int :=
  if color = Color.Black then 6 else 1

/-- The method `GetValidMoves`, dispatched on the piece kind as the Go interface
call dispatches on the dynamic type. -/
def Piece.GetValidMoves (piece : Piece) (position : Position) (board : Board) :
    List Position :=
  match piece with
  | Piece.King color => stepMoves color position board kingDirections
  | Piece.Queen color => slideMoves color position board queenDirections
  | Piece.Rook color => slideMoves color position board rookDirections
  | Piece.Bishop color => slideMoves color position board bishopDirections
  | Piece.Knight color => stepMoves color position board knightDeltas
  | Piece.Pawn color =>
    pawnForward position board (pawnDirection color) (pawnStartRow color) ++
      pawnCaptures color position board (pawnDirection color)

/-! ## Game state -/

/-- The Go struct `ChessGame`. -/
structure ChessGame where
  board : Board
  currentPlayer : Color
  gameOver : Bool

/-- The function `NewChessGame`. -/
def NewChessGame : ChessGame :=
  ⟨Board.zero.InitializeBoard, Color.White, false⟩

/-- The method `SwitchPlayer`. -/
def ChessGame.SwitchPlayer (cg : ChessGame) : ChessGame :=
  if cg.currentPlayer = Color.White then ⟨cg.board, Color.Black, cg.gameOver⟩
  else ⟨cg.board, Color.White, cg.gameOver⟩

/-- The method `IsValidMove`. -/
def ChessGame.IsValidMove (cg : ChessGame) (start endPos : Position) : Bool :=
  match cg.board.GetPiece start with
  | none => false
  | some piece =>
    if piece.GetColor != cg.currentPlayer then false
    else (piece.GetValidMoves start cg.board).any (fun move => move == endPos)

/-- One cell of the scan of `CheckGameOver`: the flags `(whiteKing, blackKing)`
after looking at the piece of the cell. -/
def kingScanCell (board : Board) (flags : Bool × Bool) (row col : Nat) : Bool × Bool :=
  match board.GetPiece ⟨(row : Int), (col : Int)⟩ with
  | some (Piece.King color) =>
    if color = Color.White then (true, flags.2) else (flags.1, true)
  | _ => flags

/-- The nested `row`, `col` loops of `CheckGameOver`, from both flags false. -/
def kingScan (board : Board) : Bool × Bool :=
  (List.range 8).foldl
    (fun flags row => (List.range 8).foldl (fun flags col => kingScanCell board flags row col) flags)
    (false, false)

/-- The method `CheckGameOver`. -/
def ChessGame.CheckGameOver (cg : ChessGame) : ChessGame :=
  let flags := kingScan cg.board
  if !flags.1 then ⟨cg.board, cg.currentPlayer, true⟩
  else if !flags.2 then ⟨cg.board, cg.currentPlayer, true⟩
  else cg

/-! ## Vocabulary of the specification -/

/-- The 64-bit two's-complement value of an exact integer: what a Go `int`
holds after an addition whose exact result is the argument. -/
def wrap64 (x : Int) : Int :=
  (x + 9223372036854775808) % 18446744073709551616 - 9223372036854775808

/-- The square `k` steps of `(dRow, dCol)` away from `(row, col)`. -/
def raySquare (row col dRow dCol : Int) (k : Nat) : Position :=
  ⟨row + (k : Int) * dRow, col + (k : Int) * dCol⟩

/-- What the inner loop of a sliding piece reaches from `(row, col)` along
`(dRow, dCol)`: the `k`-th square of the ray, on the board, every earlier square
of the ray being on the board and empty, and the square itself empty or held by
another colour. -/
def RayReaches (board : Board) (color : Color) (row col dRow dCol : Int) (t : Position) :
    Prop :=
  ∃ k : Nat, 1 ≤ k ∧ t = raySquare row col dRow dCol k ∧
    Board.IsWithinBounds t.Row t.Col = true ∧
    (∀ j : Nat, 1 ≤ j → j < k →
      Board.IsWithinBounds (raySquare row col dRow dCol j).Row
        (raySquare row col dRow dCol j).Col = true ∧
      board.GetPiece (raySquare row col dRow dCol j) = none) ∧
    freeOrEnemy color (board.GetPiece t) = true

/-- A step of at most one row and one column that is not the null step. -/
def IsUnitStep (d : Position) : Prop :=
  (-1 ≤ d.Row ∧ d.Row ≤ 1) ∧ (-1 ≤ d.Col ∧ d.Col ≤ 1) ∧ (d.Row ≠ 0 ∨ d.Col ≠ 0)

/-- The 4 orthogonal unit steps. -/
def IsOrthogonalStep (d : Position) : Prop :=
  (d.Row = 0 ∧ (d.Col = 1 ∨ d.Col = -1)) ∨ (d.Col = 0 ∧ (d.Row = 1 ∨ d.Row = -1))

/-- The 4 diagonal unit steps. -/
def IsDiagonalStep (d : Position) : Prop :=
  (d.Row = 1 ∨ d.Row = -1) ∧ (d.Col = 1 ∨ d.Col = -1)

/-- The 8 unit steps, orthogonal or diagonal. -/
def IsKingStep (d : Position) : Prop := IsOrthogonalStep d ∨ IsDiagonalStep d

/-- The 8 knight jumps `(±1, ±2)` and `(±2, ±1)`. -/
def IsKnightJump (d : Position) : Prop :=
  ((d.Row = 1 ∨ d.Row = -1) ∧ (d.Col = 2 ∨ d.Col = -2)) ∨
    ((d.Row = 2 ∨ d.Row = -2) ∧ (d.Col = 1 ∨ d.Col = -1))

/-- The squares the specification gives a sliding piece of colour `color` on `s`
whose directions are those satisfying `Dir`: `t = s + k * d` for a direction `d`
and some `k ≥ 1`, `t` on the board, every square `s + j * d` with `1 ≤ j < k`
empty, and `t` empty or held by a piece of another colour. -/
def SlideTarget (board : Board) (color : Color) (s : Position) (Dir : Position → Prop)
    (t : Position) : Prop :=
  ∃ d : Position, Dir d ∧ ∃ k : Nat, 1 ≤ k ∧
    t = ⟨s.Row + (k : Int) * d.Row, s.Col + (k : Int) * d.Col⟩ ∧
    Board.IsWithinBounds t.Row t.Col = true ∧
    (∀ j : Nat, 1 ≤ j → j < k →
      board.GetPiece ⟨s.Row + (j : Int) * d.Row, s.Col + (j : Int) * d.Col⟩ = none) ∧
    (board.GetPiece t = none ∨ ∃ p, board.GetPiece t = some p ∧ p.GetColor ≠ color)

/-- The forward step of a pawn in the specification: `+1` for White, `-1` for Black. -/
def pawnForwardStep : Color → Int
  | Color.White => 1
  | Color.Black => -1

/-- The home row of a pawn in the specification: row 1 for White, row 6 for Black. -/
def pawnHomeRow : Color → Int
  | Color.White => 1
  | Color.Black => 6

/-- The back rank of the standard starting array, columns 0 to 7. -/
def backRankOrder (color : Color) : List Piece :=
  [Piece.Rook color, Piece.Knight color, Piece.Bishop color, Piece.Queen color,
   Piece.King color, Piece.Bishop color, Piece.Knight color, Piece.Rook color]

/-- The standard starting array. -/
def startingArray (pos : Position) : Option Piece :=
  if 0 ≤ pos.Col ∧ pos.Col < 8 then
    if pos.Row = 0 then (backRankOrder Color.White)[pos.Col.toNat]?
    else if pos.Row = 1 then some (Piece.Pawn Color.White)
    else if pos.Row = 6 then some (Piece.Pawn Color.Black)
    else if pos.Row = 7 then (backRankOrder Color.Black)[pos.Col.toNat]?
    else none
  else none

/-- The flag of `CheckGameOver` that records a king of the given colour:
`whiteKing` for White, `blackKing` for Black. -/
def kingFlag (color : Color) (flags : Bool × Bool) : Bool :=
  match color with
  | Color.White => flags.1
  | Color.Black => flags.2

/-! ## Go strings and the library functions the parser calls

A Go string is a sequence of bytes.  The functions below embed the functions of
the packages `strings`, `strconv` and `fmt` that `main.go` calls, following the
documentation of the Go standard library.  White space is what `unicode.IsSpace`
accepts; its UTF-8 encodings all begin with a byte that is not a continuation
byte, so looking for an encoded white-space rune at each byte offset finds the
same runes as decoding the string rune by rune. -/

/-- A Go string: its bytes. -/
abbrev GoString := List (Fin 256)

/-- The bytes of a literal made of ASCII characters. -/
def ascii (s : String) : GoString :=
  s.toList.map (fun c => Fin.ofNat c.toNat)

/-- The one-byte white-space runes: U+0009 to U+000D and U+0020. -/
def spaceRune1 (x : Nat) : Prop :=
  x = 9 ∨ x = 10 ∨ x = 11 ∨ x = 12 ∨ x = 13 ∨ x = 32

/-- The two-byte white-space runes: U+0085 is `C2 85` and U+00A0 is `C2 A0`. -/
def spaceRune2 (x y : Nat) : Prop :=
  x = 194 ∧ (y = 133 ∨ y = 160)

/-- The three-byte white-space runes: U+1680 is `E1 9A 80`, U+2000 to U+200A are
`E2 80 80` to `E2 80 8A`, U+2028, U+2029 and U+202F are `E2 80 A8`, `E2 80 A9`
and `E2 80 AF`, U+205F is `E2 81 9F` and U+3000 is `E3 80 80`. -/
def spaceRune3 (x y z : Nat) : Prop :=
  (x = 225 ∧ y = 154 ∧ z = 128) ∨
  (x = 226 ∧ y = 128 ∧ ((128 ≤ z ∧ z ≤ 138) ∨ z = 168 ∨ z = 169 ∨ z = 175)) ∨
  (x = 226 ∧ y = 129 ∧ z = 159) ∨
  (x = 227 ∧ y = 128 ∧ z = 128)

instance (x : Nat) : Decidable (spaceRune1 x) :=
  inferInstanceAs (Decidable (x = 9 ∨ x = 10 ∨ x = 11 ∨ x = 12 ∨ x = 13 ∨ x = 32))

instance (x y : Nat) : Decidable (spaceRune2 x y) :=
  inferInstanceAs (Decidable (x = 194 ∧ (y = 133 ∨ y = 160)))

instance (x y z : Nat) : Decidable (spaceRune3 x y z) :=
  inferInstanceAs (Decidable ((x = 225 ∧ y = 154 ∧ z = 128) ∨
    (x = 226 ∧ y = 128 ∧ ((128 ≤ z ∧ z ≤ 138) ∨ z = 168 ∨ z = 169 ∨ z = 175)) ∨
    (x = 226 ∧ y = 129 ∧ z = 159) ∨
    (x = 227 ∧ y = 128 ∧ z = 128)))

/-- The number of bytes of the white-space rune encoded at the head of the
string, `0` when the string does not begin with one.  The runes of
`unicode.IsSpace` are U+0009 to U+000D, U+0020, U+0085, U+00A0, U+1680, U+2000
to U+200A, U+2028, U+2029, U+202F, U+205F and U+3000. -/
def spaceRuneLen : GoString → Nat
  | [] => 0
  | b0 :: rest =>
    if spaceRune1 b0.val then 1
    else
      match rest with
      | [] => 0
      | b1 :: rest2 =>
        if spaceRune2 b0.val b1.val then 2
        else
          match rest2 with
          | [] => 0
          | b2 :: _ => if spaceRune3 b0.val b1.val b2.val then 3 else 0

/-- The number of bytes of the white-space rune encoded at the end of the
string whose bytes are given last byte first, `0` when there is none. -/
def spaceRuneLenRev : GoString → Nat
  | [] => 0
  | b0 :: rest =>
    if spaceRune1 b0.val then 1
    else
      match rest with
      | [] => 0
      | b1 :: rest2 =>
        if spaceRune2 b1.val b0.val then 2
        else
          match rest2 with
          | [] => 0
          | b2 :: _ => if spaceRune3 b2.val b1.val b0.val then 3 else 0

/-- Removal of the leading white-space runes; `skip` counts the bytes still to
drop of a rune already recognised. -/
def trimLeftFrom : Nat → GoString → GoString
  | _, [] => []
  | skip + 1, _ :: rest => trimLeftFrom skip rest
  | 0, b :: rest =>
    if spaceRuneLen (b :: rest) = 0 then b :: rest
    else trimLeftFrom (spaceRuneLen (b :: rest) - 1) rest

/-- Removal of the trailing white-space runes of a string given last byte
first. -/
def trimRightFrom : Nat → GoString → GoString
  | _, [] => []
  | skip + 1, _ :: rest => trimRightFrom skip rest
  | 0, b :: rest =>
    if spaceRuneLenRev (b :: rest) = 0 then b :: rest
    else trimRightFrom (spaceRuneLenRev (b :: rest) - 1) rest

/-- The function `strings.TrimSpace`: the string without its leading and
trailing white space. -/
def TrimSpace (s : GoString) : GoString :=
  (trimRightFrom 0 (trimLeftFrom 0 s).reverse).reverse

/-- The fields found from a given offset: `cur` holds the bytes of the field
being read, last byte first. -/
def fieldsFrom : Nat → GoString → GoString → List GoString
  | _, cur, [] => if cur = [] then [] else [cur.reverse]
  | skip + 1, cur, _ :: rest => fieldsFrom skip cur rest
  | 0, cur, b :: rest =>
    if spaceRuneLen (b :: rest) = 0 then fieldsFrom 0 (b :: cur) rest
    else
      (if cur = [] then [] else [cur.reverse]) ++
        fieldsFrom (spaceRuneLen (b :: rest) - 1) [] rest

/-- The function `strings.Fields`: the maximal runs of bytes between white
space, none of them empty. -/
def Fields (s : GoString) : List GoString :=
  fieldsFrom 0 [] s

/-- The first offset at or after `i` where `sub` occurs, `-1` when there is
none; the argument list is the string from offset `i` on. -/
def indexFrom (sub : GoString) : Nat → GoString → Int
  | i, [] => if sub = [] then (i : Int) else -1
  | i, b :: rest =>
    if sub.isPrefixOf (b :: rest) then (i : Int) else indexFrom sub (i + 1) rest

/-- The function `strings.Index`. -/
def Index (s sub : GoString) : Int :=
  indexFrom sub 0 s

/-- The function `strings.Contains`, which is `Index(s, substr) >= 0`. -/
def Contains (s sub : GoString) : Bool :=
  decide (Index s sub ≥ 0)

/-- The pieces of `strings.Split` from a given offset, for a separator that is
not empty: `cur` holds the bytes of the piece being read, last byte first, and
`skip` counts the bytes still to drop of a separator already found. -/
def splitFrom (sep : GoString) : Nat → GoString → GoString → List GoString
  | _, cur, [] => [cur.reverse]
  | skip + 1, cur, _ :: rest => splitFrom sep skip cur rest
  | 0, cur, b :: rest =>
    if sep.isPrefixOf (b :: rest) then
      cur.reverse :: splitFrom sep (sep.length - 1) [] rest
    else splitFrom sep 0 (b :: cur) rest

/-- The function `strings.Split` for a separator that is not empty (the only
use in `main.go`): the pieces between the occurrences of the separator, found
from left to right without overlap. -/
def Split (s sep : GoString) : List GoString :=
  splitFrom sep 0 [] s

/-- The value of a run of decimal digits read after the value `acc`; `none` at
a byte that is not a digit. -/
def digitsValue : Nat → GoString → Option Nat
  | acc, [] => some acc
  | acc, b :: rest =>
    if 48 ≤ b.val ∧ b.val ≤ 57 then digitsValue (10 * acc + (b.val - 48)) rest
    else none

/-- The magnitude after an optional sign: at least one digit, digits only. -/
def unsignedValue (s : GoString) : Option Nat :=
  match s with
  | [] => none
  | _ :: _ => digitsValue 0 s

/-- The function `strconv.Atoi` for the 64-bit `int`: an optional sign `+` or
`-`, then decimal digits; `none` is a syntax or range error. -/
def Atoi (s : GoString) : Option Int :=
  match s with
  | [] => none
  | b :: rest =>
    if b.val = 45 then
      match unsignedValue rest with
      | some n => if n ≤ 9223372036854775808 then some (-(n : Int)) else none
      | none => none
    else if b.val = 43 then
      match unsignedValue rest with
      | some n => if n < 9223372036854775808 then some (n : Int) else none
      | none => none
    else
      match unsignedValue (b :: rest) with
      | some n => if n < 9223372036854775808 then some (n : Int) else none
      | none => none

/-- The conversion `string(b)` of a byte `b`: the UTF-8 encoding of the code
point of value `b`, one byte below 128 and two bytes from 128 on. -/
def stringOfByte (b : Fin 256) : GoString :=
  if b.val < 128 then [b]
  else [Fin.ofNat (192 + b.val / 64), Fin.ofNat (128 + b.val % 64)]

/-- The expression `strings.ToLower(string(b))` for a byte `b`: the conversion
gives the UTF-8 encoding of the code point of value `b`, and `ToLower` maps `A`
to `Z` and the Latin-1 capitals U+00C0 to U+00DE, except U+00D7, to their
lower-case letters. -/
def lowerOfByte (b : Fin 256) : GoString :=
  if b.val < 128 then
    if 65 ≤ b.val ∧ b.val ≤ 90 then [Fin.ofNat (b.val + 32)] else [b]
  else
    let cp := if 192 ≤ b.val ∧ b.val ≤ 222 ∧ b.val ≠ 215 then b.val + 32 else b.val
    [Fin.ofNat (192 + cp / 64), Fin.ofNat (128 + cp % 64)]

/-- The errors of the parser, one for each message of the source. -/
inductive ParseError where
  | invalidInputFormat : ParseError
  | invalidNumbers : ParseError
  | invalidAlgebraicPositions : ParseError
  | invalidAlgebraicNotation : ParseError
  | invalidColumn : ParseError
  | invalidRow : ParseError
deriving DecidableEq

/-- The method `AlgebraicToPosition`; its receiver is unused in the source. -/
def ChessGame.AlgebraicToPosition (alg : GoString) : Except ParseError Position :=
  match alg with
  | [b0, b1] =>
    let colChar := lowerOfByte b0
    let rowChar := stringOfByte b1
    let columns := ascii "abcdefgh"
    let col := Index columns colChar
    if col = -1 then Except.error ParseError.invalidColumn
    else
      match Atoi rowChar with
      | none => Except.error ParseError.invalidRow
      | some row =>
        if row < 1 ∨ row > 8 then Except.error ParseError.invalidRow
        else Except.ok ⟨row - 1, col⟩
  | _ => Except.error ParseError.invalidAlgebraicNotation

/-- The method `PositionToAlgebraic`; its receiver is unused in the source.  In
bounds, `%c` prints the column letter and `%d` the one-digit number
`pos.Row + 1`. -/
def ChessGame.PositionToAlgebraic (pos : Position) : GoString :=
  if pos.Col < 0 ∨ pos.Col ≥ 8 ∨ pos.Row < 0 ∨ pos.Row ≥ 8 then ascii "Invalid"
  else
    [(ascii "abcdefgh").getD pos.Col.toNat 0, Fin.ofNat (48 + (pos.Row + 1).toNat)]

/-- The two algebraic branches of `ParseInput` after the split. -/
def parseAlgebraicParts (parts : List GoString) : Except ParseError (Position × Position) :=
  match parts with
  | [p0, p1] =>
    match ChessGame.AlgebraicToPosition (TrimSpace p0),
        ChessGame.AlgebraicToPosition (TrimSpace p1) with
    | Except.ok startPos, Except.ok endPos => Except.ok (startPos, endPos)
    | _, _ => Except.error ParseError.invalidAlgebraicPositions
  | _ => Except.error ParseError.invalidInputFormat

/-- The coordinate branch of `ParseInput` after `strings.Fields`. -/
def parseCoordinateParts (parts : List GoString) : Except ParseError (Position × Position) :=
  match parts with
  | [p0, p1] =>
    match Split p0 (ascii ","), Split p1 (ascii ",") with
    | [s0, s1], [e0, e1] =>
      match Atoi s0, Atoi s1, Atoi e0, Atoi e1 with
      | some startRow, some startCol, some endRow, some endCol =>
        Except.ok (⟨wrap64 (startRow - 1), wrap64 (startCol - 1)⟩,
          ⟨wrap64 (endRow - 1), wrap64 (endCol - 1)⟩)
      | _, _, _, _ => Except.error ParseError.invalidNumbers
    | _, _ => Except.error ParseError.invalidInputFormat
  | _ => Except.error ParseError.invalidInputFormat

/-- The method `ParseInput`; its receiver is unused in the source. -/
def ChessGame.ParseInput (input : GoString) : Except ParseError (Position × Position) :=
  let input := TrimSpace input
  if Contains input (ascii ",") then
    parseCoordinateParts (Fields input)
  else if Contains input (ascii "to") then
    parseAlgebraicParts (Split input (ascii "to"))
  else
    parseAlgebraicParts (Split input (ascii ","))

/-- The part of `PlayTurn` that follows a successful `ParseInput`: the legality
test, and for an accepted move `MovePiece`, `CheckGameOver` and, unless the
game is over, `SwitchPlayer`. -/
def ChessGame.playParsed (cg : ChessGame) (start endPos : Position) : ChessGame :=
  if !cg.IsValidMove start endPos then cg
  else
    let moved : ChessGame :=
      ⟨(cg.board.MovePiece start endPos).1, cg.currentPlayer, cg.gameOver⟩
    let checked := moved.CheckGameOver
    if !checked.gameOver then checked.SwitchPlayer else checked

/-- The method `PlayTurn`, the scanner being the line it delivers (`none` when
`scanner.Scan()` fails). -/
def ChessGame.PlayTurn (cg : ChessGame) (line : Option GoString) : ChessGame :=
  match line with
  | none => ⟨cg.board, cg.currentPlayer, true⟩
  | some input =>
    match ChessGame.ParseInput input with
    | Except.error _ => cg
    | Except.ok (start, endPos) => cg.playParsed start endPos

/-! ## Vocabulary of the turn, invariant and parser properties -/

/-- The other colour: Black for White, White for Black. -/
def Color.other : Color → Color
  | Color.White => Color.Black
  | Color.Black => Color.White

/-- The game states a finite sequence of turn steps leads to from `cg`, each
step being `playParsed` on an arbitrary pair of positions. -/
inductive StepsTo (cg : ChessGame) : ChessGame → Prop where
  | refl : StepsTo cg cg
  | step {mid : ChessGame} (start endPos : Position) :
    StepsTo cg mid → StepsTo cg (mid.playParsed start endPos)

/-- The game states reachable from `NewChessGame` by turn steps. -/
def Reachable (cg : ChessGame) : Prop := StepsTo NewChessGame cg

/-- The board holds at most one king of the colour. -/
def AtMostOneKing (board : Board) (color : Color) : Prop :=
  ∀ p q : Position, board.GetPiece p = some (Piece.King color) →
    board.GetPiece q = some (Piece.King color) → p = q

/-- No cell of the board holds a king of the colour. -/
def KingMissing (board : Board) (color : Color) : Prop :=
  ¬ ∃ pos : Position, board.GetPiece pos = some (Piece.King color)

/-- The cells of the grid that hold a piece. -/
def Board.occupied (b : Board) : Finset (Fin 8 × Fin 8) :=
  Finset.univ.filter (fun cell => (b.grid cell.1 cell.2).isSome = true)

/-- The number of pieces on the board. -/
def Board.pieceCount (b : Board) : Nat := b.occupied.card

/-- The position `TestKingCapture` sets up: a new game with a White king put on
`(4,4)` and a Black king on `(4,5)`. -/
def kingCaptureGame : ChessGame :=
  ⟨(NewChessGame.board.SetPiece ⟨4, 4⟩ (some (Piece.King Color.White))).SetPiece ⟨4, 5⟩
    (some (Piece.King Color.Black)), NewChessGame.currentPlayer, NewChessGame.gameOver⟩

deriving instance DecidableEq for Except

/-- A column letter: `a` to `h`, or `A` to `H`, which the parser lower-cases. -/
def IsFileLetter (b : Fin 256) : Prop :=
  (97 ≤ b.val ∧ b.val ≤ 104) ∨ (65 ≤ b.val ∧ b.val ≤ 72)

/-- A row digit: `1` to `8`. -/
def IsRankDigit (b : Fin 256) : Prop :=
  49 ≤ b.val ∧ b.val ≤ 56

instance (b : Fin 256) : Decidable (IsFileLetter b) :=
  inferInstanceAs (Decidable ((97 ≤ b.val ∧ b.val ≤ 104) ∨ (65 ≤ b.val ∧ b.val ≤ 72)))

instance (b : Fin 256) : Decidable (IsRankDigit b) :=
  inferInstanceAs (Decidable (49 ≤ b.val ∧ b.val ≤ 56))

/-- The index in `abcdefgh` of a column letter, taken in lower case. -/
def fileIndex (b : Fin 256) : Int :=
  if 97 ≤ b.val then (b.val : Int) - 97 else (b.val : Int) - 65

/-- The value of a digit, minus one. -/
def rankIndex (b : Fin 256) : Int :=
  (b.val : Int) - 48 - 1

/-- A printable ASCII byte other than the space: `!` to `~`. -/
def IsPrintable (b : Fin 256) : Prop :=
  33 ≤ b.val ∧ b.val ≤ 126

/-! ## Board accessors -/

theorem within_iff (row col : Int) :
    Board.IsWithinBounds row col = true ↔ (0 ≤ row ∧ row < 8) ∧ (0 ≤ col ∧ col < 8) := by
  simp [Board.IsWithinBounds, and_assoc]

theorem within_false_iff (row col : Int) :
    Board.IsWithinBounds row col = false ↔ ¬ ((0 ≤ row ∧ row < 8) ∧ (0 ≤ col ∧ col < 8)) := by
  rw [← within_iff]; simp

theorem index_eq_iff (x y : Int) (hx0 : 0 ≤ x) (hx8 : x < 8) (hy0 : 0 ≤ y) (hy8 : y < 8) :
    Board.index x hx0 hx8 = Board.index y hy0 hy8 ↔ x = y := by
  simp only [Board.index, Fin.mk.injEq]
  omega

theorem GetPiece_of_not_within (b : Board) (pos : Position)
    (h : Board.IsWithinBounds pos.Row pos.Col = false) : b.GetPiece pos = none := by
  rw [within_false_iff] at h
  simp [Board.GetPiece, h]

theorem within_of_GetPiece (b : Board) (pos : Position) (p : Piece)
    (h : b.GetPiece pos = some p) : Board.IsWithinBounds pos.Row pos.Col = true := by
  by_contra hc
  rw [Bool.not_eq_true] at hc
  rw [GetPiece_of_not_within b pos hc] at h
  exact Option.noConfusion h

theorem GetPiece_SetPiece (b : Board) (pos q : Position) (piece : Option Piece) :
    (b.SetPiece pos piece).GetPiece q =
      if Board.IsWithinBounds pos.Row pos.Col = true ∧ q = pos then piece else b.GetPiece q := by
  by_cases hp : (0 ≤ pos.Row ∧ pos.Row < 8) ∧ (0 ≤ pos.Col ∧ pos.Col < 8)
  · have hw : Board.IsWithinBounds pos.Row pos.Col = true := (within_iff _ _).2 hp
    by_cases hq : (0 ≤ q.Row ∧ q.Row < 8) ∧ (0 ≤ q.Col ∧ q.Col < 8)
    · simp only [Board.SetPiece, Board.GetPiece, hp, hq, dif_pos, Board.assign, hw, true_and,
        index_eq_iff]
      by_cases e : q = pos
      · subst e; simp
      · have : ¬ (q.Row = pos.Row ∧ q.Col = pos.Col) := by
          intro h; apply e; cases q; cases pos; simp_all
        simp [this, e]
    · have e : q ≠ pos := by rintro rfl; exact hq hp
      simp [Board.SetPiece, Board.GetPiece, hp, hq, e]
  · have hw : ¬ Board.IsWithinBounds pos.Row pos.Col = true := by rw [within_iff]; exact hp
    simp [Board.SetPiece, hp, hw]


/-! ## The single-step loop of the king and the knight -/

theorem mem_stepMoves_fold (color : Color) (position : Position) (board : Board)
    (deltas : List Position) (acc : List Position) (t : Position) :
    t ∈ deltas.foldl
        (fun moves d =>
          let newRow := position.Row + d.Row
          let newCol := position.Col + d.Col
          if Board.IsWithinBounds newRow newCol then
            if freeOrEnemy color (board.GetPiece ⟨newRow, newCol⟩) then
              moves ++ [⟨newRow, newCol⟩]
            else moves
          else moves)
        acc ↔
      t ∈ acc ∨ ∃ d ∈ deltas, t = ⟨position.Row + d.Row, position.Col + d.Col⟩ ∧
        Board.IsWithinBounds t.Row t.Col = true ∧ freeOrEnemy color (board.GetPiece t) = true := by
  induction deltas generalizing acc with
  | nil => simp
  | cons d ds ih =>
    rw [List.foldl_cons, ih]
    simp only [List.mem_cons, exists_eq_or_imp]
    by_cases hw : Board.IsWithinBounds (position.Row + d.Row) (position.Col + d.Col) = true
    · by_cases hf : freeOrEnemy color (board.GetPiece ⟨position.Row + d.Row, position.Col + d.Col⟩) = true
      · simp only [hw, hf, if_true, List.mem_append, List.mem_singleton]
        constructor
        · rintro ((h | h) | h)
          · exact Or.inl h
          · subst h; exact Or.inr (Or.inl ⟨rfl, hw, hf⟩)
          · exact Or.inr (Or.inr h)
        · rintro (h | h | h)
          · exact Or.inl (Or.inl h)
          · exact Or.inl (Or.inr h.1)
          · exact Or.inr h
      · simp only [hw, hf, if_true, if_false]
        constructor
        · rintro (h | h)
          · exact Or.inl h
          · exact Or.inr (Or.inr h)
        · rintro (h | h | h)
          · exact Or.inl h
          · obtain ⟨rfl, _, h3⟩ := h; exact absurd h3 hf
          · exact Or.inr h
    · simp only [hw, if_false]
      constructor
      · rintro (h | h)
        · exact Or.inl h
        · exact Or.inr (Or.inr h)
      · rintro (h | h | h)
        · exact Or.inl h
        · obtain ⟨rfl, h2, _⟩ := h; exact absurd h2 hw
        · exact Or.inr h

theorem mem_stepMoves (color : Color) (position : Position) (board : Board)
    (deltas : List Position) (t : Position) :
    t ∈ stepMoves color position board deltas ↔
      ∃ d ∈ deltas, t = ⟨position.Row + d.Row, position.Col + d.Col⟩ ∧
        Board.IsWithinBounds t.Row t.Col = true ∧ freeOrEnemy color (board.GetPiece t) = true := by
  unfold stepMoves
  rw [mem_stepMoves_fold]
  simp

/-! ## The inner loop of the sliding pieces -/

theorem raySquare_succ (row col dRow dCol : Int) (k : Nat) :
    raySquare (row + dRow) (col + dCol) dRow dCol k = raySquare row col dRow dCol (k + 1) := by
  simp only [raySquare, Position.mk.injEq]
  constructor <;> (push_cast; ring)

theorem raySquare_one (row col dRow dCol : Int) :
    raySquare row col dRow dCol 1 = ⟨row + dRow, col + dCol⟩ := by
  simp [raySquare]



theorem rayReaches_step (board : Board) (color : Color) (row col dRow dCol : Int) (t : Position) :
    RayReaches board color row col dRow dCol t ↔
      (t = ⟨row + dRow, col + dCol⟩ ∧ Board.IsWithinBounds t.Row t.Col = true ∧
        freeOrEnemy color (board.GetPiece t) = true) ∨
      (Board.IsWithinBounds (row + dRow) (col + dCol) = true ∧
        board.GetPiece ⟨row + dRow, col + dCol⟩ = none ∧
        RayReaches board color (row + dRow) (col + dCol) dRow dCol t) := by
  constructor
  · rintro ⟨k, hk, ht, hw, hmid, hf⟩
    rcases Nat.lt_or_ge 1 k with h1 | h1
    · right
      have h := hmid 1 (le_refl 1) h1
      rw [raySquare_one] at h
      refine ⟨h.1, h.2, k - 1, by omega, ?_, hw, ?_, hf⟩
      · rw [raySquare_succ, Nat.sub_add_cancel hk]; exact ht
      · intro j hj hjk
        rw [raySquare_succ]
        exact hmid (j + 1) (by omega) (by omega)
    · left
      have : k = 1 := by omega
      subst this
      rw [raySquare_one] at ht
      exact ⟨ht, hw, hf⟩
  · rintro (⟨ht, hw, hf⟩ | ⟨hw1, hn1, k, hk, ht, hw, hmid, hf⟩)
    · refine ⟨1, le_refl 1, ?_, hw, ?_, hf⟩
      · rw [raySquare_one]; exact ht
      · intro j hj hj1; omega
    · refine ⟨k + 1, by omega, ?_, hw, ?_, hf⟩
      · rw [← raySquare_succ]; exact ht
      · intro j hj hjk
        rcases Nat.lt_or_ge 1 j with h1 | h1
        · have := hmid (j - 1) (by omega) (by omega)
          rw [raySquare_succ, Nat.sub_add_cancel hj] at this
          exact this
        · have : j = 1 := by omega
          subst this
          rw [raySquare_one]
          exact ⟨hw1, hn1⟩

theorem mem_slideLoop (board : Board) (color : Color) (dRow dCol : Int) (fuel : Nat) :
    ∀ (row col : Int) (l : List Position),
      slideLoop board color dRow dCol fuel row col = some l →
      ∀ t, t ∈ l ↔ RayReaches board color row col dRow dCol t := by
  induction fuel with
  | zero => intro row col l h; simp [slideLoop] at h
  | succ n ih =>
    intro row col l h t
    rw [rayReaches_step]
    simp only [slideLoop] at h
    by_cases hw : Board.IsWithinBounds (row + dRow) (col + dCol) = true
    · simp only [hw, if_true] at h
      cases hp : board.GetPiece ⟨row + dRow, col + dCol⟩ with
      | none =>
        rw [hp] at h
        simp only [Option.map_eq_some'] at h
        obtain ⟨rest, hrest, rfl⟩ := h
        rw [List.mem_cons, ih _ _ rest hrest t]
        constructor
        · rintro (h | h)
          · left; subst h; exact ⟨rfl, hw, by simp [hp, freeOrEnemy]⟩
          · right; exact ⟨hw, rfl, h⟩
        · rintro (h | h)
          · exact Or.inl h.1
          · exact Or.inr h.2.2
      | some target =>
        rw [hp] at h
        simp only at h
        constructor
        · intro ht
          left
          by_cases hc : (target.GetColor != color) = true
          · simp only [hc, if_true, Option.some.injEq] at h
            subst h
            rw [List.mem_singleton] at ht
            subst ht
            exact ⟨rfl, hw, by simp [hp, freeOrEnemy]; simpa using hc⟩
          · simp only [hc, Bool.false_eq_true, if_false, Option.some.injEq] at h
            subst h
            simp at ht
        · rintro (⟨rfl, _, hf⟩ | ⟨_, hn, _⟩)
          · rw [hp] at hf
            simp only [freeOrEnemy] at hf
            simp only [hf, if_true, Option.some.injEq] at h
            subst h
            simp
          · exact Option.noConfusion hn
    · simp only [hw, Bool.false_eq_true, if_false, Option.some.injEq] at h
      subst h
      simp only [List.not_mem_nil, false_iff]
      rintro (⟨rfl, h2, _⟩ | ⟨h1, _⟩)
      · exact hw h2
      · exact hw h1

/-! ### The inner loop ends within the iterations granted -/

theorem slideLoop_isSome_of_measure (board : Board) (color : Color) (dRow dCol : Int)
    (mu : Int → Int → Nat)
    (hmu : ∀ r c, Board.IsWithinBounds (r + dRow) (c + dCol) = true →
      mu (r + dRow) (c + dCol) < mu r c) :
    ∀ (fuel : Nat) (row col : Int), mu row col < fuel →
      ∃ l, slideLoop board color dRow dCol fuel row col = some l := by
  intro fuel
  induction fuel with
  | zero => intro row col h; omega
  | succ n ih =>
    intro row col h
    simp only [slideLoop]
    by_cases hw : Board.IsWithinBounds (row + dRow) (col + dCol) = true
    · simp only [hw, if_true]
      cases hp : board.GetPiece ⟨row + dRow, col + dCol⟩ with
      | none =>
        obtain ⟨rest, hrest⟩ := ih (row + dRow) (col + dCol) (by have := hmu row col hw; omega)
        simp only [hrest, Option.map_some']
        exact ⟨_, rfl⟩
      | some target =>
        by_cases hc : (target.GetColor != color) = true
        · simp only [hc, if_true]
          exact ⟨_, rfl⟩
        · simp only [hc, Bool.false_eq_true, if_false]
          exact ⟨_, rfl⟩
    · exact ⟨[], by simp only [hw, Bool.false_eq_true, if_false]⟩

theorem slideLoop_terminates (board : Board) (color : Color) (d : Position) (hd : IsUnitStep d)
    (row col : Int) : ∃ l, slideLoop board color d.Row d.Col slideFuel row col = some l := by
  by_cases hw : Board.IsWithinBounds (row + d.Row) (col + d.Col) = true
  · have hw2 := (within_iff _ _).1 hw
    obtain ⟨⟨hr1, hr2⟩, ⟨hc1, hc2⟩, hnz⟩ := hd
    have hcases : d.Row = 1 ∨ d.Row = -1 ∨ (d.Row = 0 ∧ d.Col = 1) ∨ (d.Row = 0 ∧ d.Col = -1) := by
      omega
    rcases hcases with h | h | ⟨h, h2⟩ | ⟨h, h2⟩
    · apply slideLoop_isSome_of_measure board color d.Row d.Col (fun r _ => (7 - r).toNat)
      · intro r c hrc
        have := (within_iff _ _).1 hrc
        omega
      · simp only [slideFuel]; omega
    · apply slideLoop_isSome_of_measure board color d.Row d.Col (fun r _ => r.toNat)
      · intro r c hrc
        have := (within_iff _ _).1 hrc
        omega
      · simp only [slideFuel]; omega
    · apply slideLoop_isSome_of_measure board color d.Row d.Col (fun _ c => (7 - c).toNat)
      · intro r c hrc
        have := (within_iff _ _).1 hrc
        omega
      · simp only [slideFuel]; omega
    · apply slideLoop_isSome_of_measure board color d.Row d.Col (fun _ c => c.toNat)
      · intro r c hrc
        have := (within_iff _ _).1 hrc
        omega
      · simp only [slideFuel]; omega
  · exact ⟨[], by simp only [slideFuel, slideLoop, hw, Bool.false_eq_true, if_false]⟩

theorem mem_foldl_append {α β : Type} (f : α → List β) (l : List α) (acc : List β) (t : β) :
    t ∈ l.foldl (fun moves d => moves ++ f d) acc ↔ t ∈ acc ∨ ∃ d ∈ l, t ∈ f d := by
  induction l generalizing acc with
  | nil => simp
  | cons d ds ih =>
    rw [List.foldl_cons, ih]
    simp only [List.mem_append, List.mem_cons, exists_eq_or_imp, or_assoc]

theorem mem_slideMoves (color : Color) (position : Position) (board : Board)
    (directions : List Position) (hdir : ∀ d ∈ directions, IsUnitStep d) (t : Position) :
    t ∈ slideMoves color position board directions ↔
      ∃ d ∈ directions, RayReaches board color position.Row position.Col d.Row d.Col t := by
  unfold slideMoves
  rw [mem_foldl_append]
  simp only [List.not_mem_nil, false_or]
  constructor
  · rintro ⟨d, hd, ht⟩
    obtain ⟨l, hl⟩ := slideLoop_terminates board color d (hdir d hd) position.Row position.Col
    rw [hl] at ht
    exact ⟨d, hd, (mem_slideLoop board color d.Row d.Col slideFuel _ _ l hl t).1 ht⟩
  · rintro ⟨d, hd, ht⟩
    obtain ⟨l, hl⟩ := slideLoop_terminates board color d (hdir d hd) position.Row position.Col
    refine ⟨d, hd, ?_⟩
    rw [hl]
    exact (mem_slideLoop board color d.Row d.Col slideFuel _ _ l hl t).2 ht

/-! ## The direction literals -/

theorem mem_rookDirections (d : Position) : d ∈ rookDirections ↔ IsOrthogonalStep d := by
  obtain ⟨r, c⟩ := d
  simp only [rookDirections, IsOrthogonalStep, List.mem_cons, Position.mk.injEq,
    List.mem_singleton, List.not_mem_nil, or_false]
  omega

theorem mem_bishopDirections (d : Position) : d ∈ bishopDirections ↔ IsDiagonalStep d := by
  obtain ⟨r, c⟩ := d
  simp only [bishopDirections, IsDiagonalStep, List.mem_cons, Position.mk.injEq,
    List.mem_singleton, List.not_mem_nil, or_false]
  omega

theorem mem_queenDirections (d : Position) : d ∈ queenDirections ↔ IsKingStep d := by
  obtain ⟨r, c⟩ := d
  simp only [queenDirections, IsKingStep, IsOrthogonalStep, IsDiagonalStep, List.mem_cons,
    Position.mk.injEq, List.mem_singleton, List.not_mem_nil, or_false]
  omega

theorem mem_kingDirections (d : Position) : d ∈ kingDirections ↔ IsKingStep d := by
  obtain ⟨r, c⟩ := d
  simp only [kingDirections, IsKingStep, IsOrthogonalStep, IsDiagonalStep, List.mem_cons,
    Position.mk.injEq, List.mem_singleton, List.not_mem_nil, or_false]
  omega

theorem mem_knightDeltas (d : Position) : d ∈ knightDeltas ↔ IsKnightJump d := by
  obtain ⟨r, c⟩ := d
  simp only [knightDeltas, IsKnightJump, List.mem_cons, Position.mk.injEq,
    List.mem_singleton, List.not_mem_nil, or_false]
  omega

theorem isUnitStep_of_kingStep (d : Position) (h : IsKingStep d) : IsUnitStep d := by
  obtain ⟨r, c⟩ := d
  simp only [IsKingStep, IsOrthogonalStep, IsDiagonalStep] at h
  simp only [IsUnitStep]
  omega

theorem freeOrEnemy_iff (color : Color) (x : Option Piece) :
    freeOrEnemy color x = true ↔ x = none ∨ ∃ p, x = some p ∧ p.GetColor ≠ color := by
  cases x with
  | none => simp [freeOrEnemy]
  | some p => simp [freeOrEnemy]

theorem unitStep_cases (d : Position) (h : IsUnitStep d) :
    (d.Row = -1 ∨ d.Row = 0 ∨ d.Row = 1) ∧ (d.Col = -1 ∨ d.Col = 0 ∨ d.Col = 1) := by
  obtain ⟨r, c⟩ := d
  simp only [IsUnitStep] at h
  simp only
  omega

theorem raySquare_within_between (row col : Int) (d : Position) (hd : IsUnitStep d)
    (hs : Board.IsWithinBounds row col = true) (j k : Nat) (hjk : j < k)
    (ht : Board.IsWithinBounds (raySquare row col d.Row d.Col k).Row
      (raySquare row col d.Row d.Col k).Col = true) :
    Board.IsWithinBounds (raySquare row col d.Row d.Col j).Row
      (raySquare row col d.Row d.Col j).Col = true := by
  obtain ⟨hr, hc⟩ := unitStep_cases d hd
  rw [within_iff] at hs ht ⊢
  simp only [raySquare] at ht ⊢
  rcases hr with hr | hr | hr <;> rcases hc with hc | hc | hc <;> rw [hr, hc] at ht ⊢ <;> omega

theorem raySquare_inj (row col : Int) (d e : Position) (hd : IsUnitStep d) (he : IsUnitStep e)
    (k m : Nat) (hk : 1 ≤ k) (hm : 1 ≤ m)
    (h : raySquare row col d.Row d.Col k = raySquare row col e.Row e.Col m) :
    d = e ∧ k = m := by
  obtain ⟨hr, hc⟩ := unitStep_cases d hd
  obtain ⟨hr2, hc2⟩ := unitStep_cases e he
  obtain ⟨dr, dc⟩ := d
  obtain ⟨er, ec⟩ := e
  simp only [IsUnitStep] at hd he
  simp only [raySquare, Position.mk.injEq] at h hr hc hr2 hc2 ⊢
  obtain ⟨h1, h2⟩ := h
  rcases hr with hr | hr | hr <;> rcases hc with hc | hc | hc <;>
    rcases hr2 with hr2 | hr2 | hr2 <;> rcases hc2 with hc2 | hc2 | hc2 <;>
    subst hr hc hr2 hc2 <;> omega

theorem rayReaches_iff (board : Board) (color : Color) (s : Position) (d : Position)
    (hd : IsUnitStep d) (hs : Board.IsWithinBounds s.Row s.Col = true) (t : Position) :
    RayReaches board color s.Row s.Col d.Row d.Col t ↔
      ∃ k : Nat, 1 ≤ k ∧
        t = ⟨s.Row + (k : Int) * d.Row, s.Col + (k : Int) * d.Col⟩ ∧
        Board.IsWithinBounds t.Row t.Col = true ∧
        (∀ j : Nat, 1 ≤ j → j < k →
          board.GetPiece ⟨s.Row + (j : Int) * d.Row, s.Col + (j : Int) * d.Col⟩ = none) ∧
        (board.GetPiece t = none ∨ ∃ p, board.GetPiece t = some p ∧ p.GetColor ≠ color) := by
  constructor
  · rintro ⟨k, hk, ht, hw, hmid, hf⟩
    exact ⟨k, hk, ht, hw, fun j hj hjk => (hmid j hj hjk).2, (freeOrEnemy_iff _ _).1 hf⟩
  · rintro ⟨k, hk, ht, hw, hmid, hf⟩
    refine ⟨k, hk, ht, hw, fun j hj hjk => ⟨?_, hmid j hj hjk⟩, (freeOrEnemy_iff _ _).2 hf⟩
    apply raySquare_within_between s.Row s.Col d hd hs j k hjk
    rw [ht] at hw
    exact hw

theorem mem_slideMoves_iff (color : Color) (s : Position) (board : Board)
    (directions : List Position) (Dir : Position → Prop)
    (hdir : ∀ d, d ∈ directions ↔ Dir d) (hunit : ∀ d, Dir d → IsUnitStep d)
    (hs : Board.IsWithinBounds s.Row s.Col = true) (t : Position) :
    t ∈ slideMoves color s board directions ↔ SlideTarget board color s Dir t := by
  rw [mem_slideMoves color s board directions (fun d h => hunit d ((hdir d).1 h))]
  constructor
  · rintro ⟨d, hd, h⟩
    exact ⟨d, (hdir d).1 hd, (rayReaches_iff board color s d (hunit d ((hdir d).1 hd)) hs t).1 h⟩
  · rintro ⟨d, hd, h⟩
    exact ⟨d, (hdir d).2 hd, (rayReaches_iff board color s d (hunit d hd) hs t).2 h⟩

theorem slideMoves_blocked (color : Color) (s : Position) (board : Board)
    (directions : List Position) (hunit : ∀ d ∈ directions, IsUnitStep d)
    (d : Position) (hd : IsUnitStep d) (k m : Nat) (hk : 1 ≤ k) (hkm : k < m) (p : Piece)
    (hocc : board.GetPiece ⟨s.Row + (k : Int) * d.Row, s.Col + (k : Int) * d.Col⟩ = some p) :
    (⟨s.Row + (m : Int) * d.Row, s.Col + (m : Int) * d.Col⟩ : Position) ∉
      slideMoves color s board directions := by
  rw [mem_slideMoves color s board directions hunit]
  rintro ⟨e, he, k2, hk2, ht, _, hmid, _⟩
  have hinj := raySquare_inj s.Row s.Col d e hd (hunit e he) m k2 (by omega) hk2 ht
  obtain ⟨rfl, rfl⟩ := hinj
  have := (hmid k hk hkm).2
  simp only [raySquare] at this
  rw [hocc] at this
  exact Option.noConfusion this

/-! ## The pawn -/

theorem mem_pawnCaptures (color : Color) (position : Position) (board : Board) (direction : Int)
    (t : Position) :
    t ∈ pawnCaptures color position board direction ↔
      (t = ⟨position.Row + direction, position.Col + -1⟩ ∨
        t = ⟨position.Row + direction, position.Col + 1⟩) ∧
      Board.IsWithinBounds t.Row t.Col = true ∧
      ∃ p, board.GetPiece t = some p ∧ p.GetColor ≠ color := by
  have key : ∀ (moves : List Position) (dc : Int),
      (if Board.IsWithinBounds (position.Row + direction) (position.Col + dc) = true then
        match board.GetPiece ⟨position.Row + direction, position.Col + dc⟩ with
        | some target =>
          if (target.GetColor != color) = true then
            moves ++ [⟨position.Row + direction, position.Col + dc⟩]
          else moves
        | none => moves
      else moves) =
      moves ++ (if Board.IsWithinBounds (position.Row + direction) (position.Col + dc) = true ∧
          ∃ p, board.GetPiece ⟨position.Row + direction, position.Col + dc⟩ = some p ∧
            p.GetColor ≠ color
        then [(⟨position.Row + direction, position.Col + dc⟩ : Position)] else []) := by
    intro moves dc
    by_cases hw : Board.IsWithinBounds (position.Row + direction) (position.Col + dc) = true
    · cases hp : board.GetPiece ⟨position.Row + direction, position.Col + dc⟩ with
      | none => simp [hw]
      | some target =>
        by_cases hc : target.GetColor = color
        · simp [hw, hc]
        · simp [hw, hc]
    · simp [hw]
  unfold pawnCaptures
  simp only [key, List.foldl_cons, List.foldl_nil, List.nil_append, List.mem_append]
  constructor
  · rintro (h | h)
    · split at h
      · rename_i hc
        rw [List.mem_singleton] at h
        subst h
        exact ⟨Or.inl rfl, hc.1, hc.2⟩
      · simp at h
    · split at h
      · rename_i hc
        rw [List.mem_singleton] at h
        subst h
        exact ⟨Or.inr rfl, hc.1, hc.2⟩
      · simp at h
  · rintro ⟨rfl | rfl, hw, hp⟩
    · left; rw [if_pos ⟨hw, hp⟩]; simp
    · right; rw [if_pos ⟨hw, hp⟩]; simp

theorem mem_pawnForward (position : Position) (board : Board) (direction startRow : Int)
    (t : Position) :
    t ∈ pawnForward position board direction startRow ↔
      (Board.IsWithinBounds (position.Row + direction) position.Col = true ∧
        board.GetPiece ⟨position.Row + direction, position.Col⟩ = none) ∧
      (t = ⟨position.Row + direction, position.Col⟩ ∨
        (t = ⟨position.Row + direction + direction, position.Col⟩ ∧ position.Row = startRow ∧
          board.GetPiece ⟨position.Row + direction + direction, position.Col⟩ = none)) := by
  unfold pawnForward
  by_cases hw : Board.IsWithinBounds (position.Row + direction) position.Col = true
  · cases hp : board.GetPiece ⟨position.Row + direction, position.Col⟩ with
    | some p => simp [hw, hp]
    | none =>
      by_cases hr : position.Row = startRow
      · subst hr
        cases hp2 : board.GetPiece ⟨position.Row + direction + direction, position.Col⟩ with
        | none => simp [hw, hp, hp2]
        | some p => simp [hw, hp, hp2]
      · simp [hw, hp, hr]
  · simp [hw]

/-! ## Move legality -/

/-- Claim C1: `IsValidMove start endPos` is true exactly when the board holds a
piece at `start`, the colour of that piece is `currentPlayer`, and `endPos`
occurs in that piece's `GetValidMoves start board`.  In particular it is false
for every `endPos` when `start` is empty, when `start` is out of bounds, and when
the piece at `start` has a colour other than the side to move. -/
theorem IsValidMove_iff (cg : ChessGame) (start endPos : Position) :
    (cg.IsValidMove start endPos = true ↔
      ∃ piece, cg.board.GetPiece start = some piece ∧ piece.GetColor = cg.currentPlayer ∧
        endPos ∈ piece.GetValidMoves start cg.board) ∧
    (cg.board.GetPiece start = none → cg.IsValidMove start endPos = false) ∧
    (Board.IsWithinBounds start.Row start.Col = false → cg.IsValidMove start endPos = false) ∧
    (∀ piece, cg.board.GetPiece start = some piece → piece.GetColor ≠ cg.currentPlayer →
      cg.IsValidMove start endPos = false) := by
  have hnone : cg.board.GetPiece start = none → cg.IsValidMove start endPos = false := by
    intro h; simp [ChessGame.IsValidMove, h]
  refine ⟨?_, hnone, fun h => hnone (GetPiece_of_not_within _ _ h), ?_⟩
  · cases hp : cg.board.GetPiece start with
    | none => simp [ChessGame.IsValidMove, hp]
    | some piece =>
      by_cases hc : piece.GetColor = cg.currentPlayer
      · simp [ChessGame.IsValidMove, hp, hc]
      · simp [ChessGame.IsValidMove, hp, hc]
  · intro piece hp hc
    simp [ChessGame.IsValidMove, hp, hc]

/-- Claim C1 at the new game: an empty start, an out-of-bounds start and a Black
pawn with White to move are refused, and the opening `e2 -> e4` is accepted. -/
theorem IsValidMove_iff_witness :
    NewChessGame.IsValidMove ⟨3, 0⟩ ⟨4, 0⟩ = false ∧
    NewChessGame.IsValidMove ⟨8, 0⟩ ⟨7, 0⟩ = false ∧
    NewChessGame.IsValidMove ⟨6, 0⟩ ⟨5, 0⟩ = false ∧
    NewChessGame.IsValidMove ⟨1, 4⟩ ⟨3, 4⟩ = true :=
  ⟨(IsValidMove_iff NewChessGame ⟨3, 0⟩ ⟨4, 0⟩).2.1 (by decide),
   (IsValidMove_iff NewChessGame ⟨8, 0⟩ ⟨7, 0⟩).2.2.1 (by decide),
   (IsValidMove_iff NewChessGame ⟨6, 0⟩ ⟨5, 0⟩).2.2.2 (Piece.Pawn Color.Black) (by decide)
     (by decide),
   (IsValidMove_iff NewChessGame ⟨1, 4⟩ ⟨3, 4⟩).1.2
     ⟨Piece.Pawn Color.White, by decide, by decide, by decide⟩⟩

/-! ## Candidate moves of each piece kind -/

theorem pawnDirection_eq (color : Color) : pawnDirection color = pawnForwardStep color := by
  cases color <;> rfl

theorem pawnStartRow_eq (color : Color) : pawnStartRow color = pawnHomeRow color := by
  cases color <;> rfl

theorem pawnForward_length (position : Position) (board : Board) (direction startRow : Int)
    (h : position.Row ≠ startRow) :
    (pawnForward position board direction startRow).length ≤ 1 := by
  simp only [pawnForward, if_neg h]
  split <;> simp

theorem mem_stepMoves_offset (color : Color) (s t : Position) (board : Board)
    (deltas : List Position) (Off : Position → Prop) (hoff : ∀ d, d ∈ deltas ↔ Off d) :
    t ∈ stepMoves color s board deltas ↔
      Off ⟨t.Row - s.Row, t.Col - s.Col⟩ ∧ Board.IsWithinBounds t.Row t.Col = true ∧
      (board.GetPiece t = none ∨ ∃ p, board.GetPiece t = some p ∧ p.GetColor ≠ color) := by
  rw [mem_stepMoves]
  constructor
  · rintro ⟨d, hd, ht, hw, hf⟩
    refine ⟨?_, hw, (freeOrEnemy_iff _ _).1 hf⟩
    have : (⟨t.Row - s.Row, t.Col - s.Col⟩ : Position) = d := by
      obtain ⟨dr, dc⟩ := d
      subst ht
      simp
    rw [this]
    exact (hoff d).1 hd
  · rintro ⟨ho, hw, hf⟩
    refine ⟨⟨t.Row - s.Row, t.Col - s.Col⟩, (hoff _).2 ho, ?_, hw, (freeOrEnemy_iff _ _).2 hf⟩
    obtain ⟨tr, tc⟩ := t
    simp

/-- Claim C2: for a pawn of colour `color` on an in-bounds square `(r, col)`, with
forward step `f` (`+1` for White, `-1` for Black) and home row 1 for White, 6 for
Black, a square is in `GetValidMoves` exactly when it is `(r + f, col)` and that
square is in bounds and empty, or `(r + 2f, col)` with `r` the home row and both
`(r + f, col)` and `(r + 2f, col)` empty, or `(r + f, col - 1)` or
`(r + f, col + 1)` and that square is in bounds and holds a piece of another
colour.  Hence off the home row at most one candidate lies in the pawn's own
column; in a new game `(1,0) -> (3,0)` is accepted and `(1,0) -> (2,1)` is not;
and a White pawn on `(3,0)` may capture a Black pawn on `(4,1)`, on any board
and in the position the test reaches with two `MovePiece` calls. -/
theorem Pawn_GetValidMoves_iff (color : Color) (board : Board) (r col : Int)
    (hin : Board.IsWithinBounds r col = true) :
    (∀ t : Position, t ∈ (Piece.Pawn color).GetValidMoves ⟨r, col⟩ board ↔
      (t = ⟨r + pawnForwardStep color, col⟩ ∧
        Board.IsWithinBounds (r + pawnForwardStep color) col = true ∧
        board.GetPiece ⟨r + pawnForwardStep color, col⟩ = none) ∨
      (t = ⟨r + 2 * pawnForwardStep color, col⟩ ∧ r = pawnHomeRow color ∧
        board.GetPiece ⟨r + pawnForwardStep color, col⟩ = none ∧
        board.GetPiece ⟨r + 2 * pawnForwardStep color, col⟩ = none) ∨
      (t = ⟨r + pawnForwardStep color, col - 1⟩ ∧
        Board.IsWithinBounds (r + pawnForwardStep color) (col - 1) = true ∧
        ∃ p, board.GetPiece ⟨r + pawnForwardStep color, col - 1⟩ = some p ∧
          p.GetColor ≠ color) ∨
      (t = ⟨r + pawnForwardStep color, col + 1⟩ ∧
        Board.IsWithinBounds (r + pawnForwardStep color) (col + 1) = true ∧
        ∃ p, board.GetPiece ⟨r + pawnForwardStep color, col + 1⟩ = some p ∧
          p.GetColor ≠ color)) ∧
    (r ≠ pawnHomeRow color →
      (((Piece.Pawn color).GetValidMoves ⟨r, col⟩ board).filter
        (fun q => decide (q.Col = col))).length ≤ 1) ∧
    NewChessGame.IsValidMove ⟨1, 0⟩ ⟨3, 0⟩ = true ∧
    NewChessGame.IsValidMove ⟨1, 0⟩ ⟨2, 1⟩ = false ∧
    (∀ b : Board, b.GetPiece ⟨4, 1⟩ = some (Piece.Pawn Color.Black) →
      (⟨4, 1⟩ : Position) ∈ (Piece.Pawn Color.White).GetValidMoves ⟨3, 0⟩ b) ∧
    (ChessGame.mk
      ((NewChessGame.board.MovePiece ⟨1, 0⟩ ⟨3, 0⟩).1.MovePiece ⟨6, 1⟩ ⟨4, 1⟩).1
      Color.White false).IsValidMove ⟨3, 0⟩ ⟨4, 1⟩ = true := by
  have hin2 := (within_iff _ _).1 hin
  refine ⟨?_, ?_, by decide, by decide, ?_, by decide⟩
  · intro t
    simp only [Piece.GetValidMoves, List.mem_append, mem_pawnForward, mem_pawnCaptures,
      pawnDirection_eq, pawnStartRow_eq]
    have e2 : r + pawnForwardStep color + pawnForwardStep color = r + 2 * pawnForwardStep color := by
      ring
    have e3 : col + -1 = col - 1 := by ring
    rw [e2, e3]
    constructor
    · rintro (⟨⟨hw, hp⟩, (rfl | ⟨rfl, hr, hp2⟩)⟩ | ⟨(rfl | rfl), hw, hp⟩)
      · exact Or.inl ⟨rfl, hw, hp⟩
      · exact Or.inr (Or.inl ⟨rfl, hr, hp, hp2⟩)
      · exact Or.inr (Or.inr (Or.inl ⟨rfl, hw, hp⟩))
      · exact Or.inr (Or.inr (Or.inr ⟨rfl, hw, hp⟩))
    · rintro (⟨rfl, hw, hp⟩ | ⟨rfl, hr, hp, hp2⟩ | ⟨rfl, hw, hp⟩ | ⟨rfl, hw, hp⟩)
      · exact Or.inl ⟨⟨hw, hp⟩, Or.inl rfl⟩
      · refine Or.inl ⟨⟨?_, hp⟩, Or.inr ⟨rfl, hr, hp2⟩⟩
        rw [within_iff]
        cases color <;> simp only [pawnHomeRow, pawnForwardStep] at hr ⊢ <;> omega
      · exact Or.inr ⟨Or.inl rfl, hw, hp⟩
      · exact Or.inr ⟨Or.inr rfl, hw, hp⟩
  · intro hr
    simp only [Piece.GetValidMoves, List.filter_append, List.length_append]
    have h1 : ((pawnCaptures color ⟨r, col⟩ board (pawnDirection color)).filter
        (fun q => decide (q.Col = col))) = [] := by
      rw [List.filter_eq_nil_iff]
      intro q hq
      rw [mem_pawnCaptures] at hq
      rcases hq.1 with rfl | rfl <;> simp
    have h2 := pawnForward_length ⟨r, col⟩ board (pawnDirection color) (pawnStartRow color)
      (by rw [pawnStartRow_eq]; exact hr)
    have h3 := List.length_filter_le (fun q : Position => decide (q.Col = col))
      (pawnForward ⟨r, col⟩ board (pawnDirection color) (pawnStartRow color))
    rw [h1]
    simp only [List.length_nil, Nat.add_zero]
    omega
  · intro b hb
    simp only [Piece.GetValidMoves, List.mem_append, mem_pawnCaptures]
    right
    exact ⟨Or.inr (by decide), by decide, _, hb, by decide⟩

/-- Claim C2 at the a2 pawn of the new game. -/
theorem Pawn_GetValidMoves_iff_witness :
    (⟨3, 0⟩ : Position) ∈ (Piece.Pawn Color.White).GetValidMoves ⟨1, 0⟩ NewChessGame.board ∧
    (⟨2, 1⟩ : Position) ∉ (Piece.Pawn Color.White).GetValidMoves ⟨1, 0⟩ NewChessGame.board :=
  ⟨((Pawn_GetValidMoves_iff Color.White NewChessGame.board 1 0 (by decide)).1 ⟨3, 0⟩).2
    (Or.inr (Or.inl ⟨by decide, by decide, by decide, by decide⟩)),
   fun h => by
    have h2 := ((Pawn_GetValidMoves_iff Color.White NewChessGame.board 1 0 (by decide)).1
      ⟨2, 1⟩).1 h
    revert h2
    decide⟩

theorem isUnitStep_of_orthogonal (d : Position) (h : IsOrthogonalStep d) : IsUnitStep d :=
  isUnitStep_of_kingStep d (Or.inl h)

theorem isUnitStep_of_diagonal (d : Position) (h : IsDiagonalStep d) : IsUnitStep d :=
  isUnitStep_of_kingStep d (Or.inr h)

/-- Claim C3: for a rook (the 4 orthogonal unit steps), a bishop (the 4 diagonal
unit steps) or a queen (all 8 unit steps) of colour `color` on an in-bounds
square `s`, a square `t` is in `GetValidMoves s board` exactly when
`t = s + k * d` for a direction `d` of the piece and some `k ≥ 1`, `t` is in
bounds, every square `s + j * d` with `1 ≤ j < k` is empty, and `t` is empty or
holds a piece whose colour is not `color`. -/
theorem sliding_GetValidMoves_iff (color : Color) (s : Position) (board : Board)
    (hs : Board.IsWithinBounds s.Row s.Col = true) (t : Position) :
    (t ∈ (Piece.Rook color).GetValidMoves s board ↔
      SlideTarget board color s IsOrthogonalStep t) ∧
    (t ∈ (Piece.Bishop color).GetValidMoves s board ↔
      SlideTarget board color s IsDiagonalStep t) ∧
    (t ∈ (Piece.Queen color).GetValidMoves s board ↔
      SlideTarget board color s IsKingStep t) :=
  ⟨mem_slideMoves_iff color s board rookDirections IsOrthogonalStep mem_rookDirections
      isUnitStep_of_orthogonal hs t,
   mem_slideMoves_iff color s board bishopDirections IsDiagonalStep mem_bishopDirections
      isUnitStep_of_diagonal hs t,
   mem_slideMoves_iff color s board queenDirections IsKingStep mem_queenDirections
      isUnitStep_of_kingStep hs t⟩

/-- Claim C3 at a White rook and queen on `(3,3)` of the starting array: the
Black pawn on `(6,3)` is a target, the square behind it is not. -/
theorem sliding_GetValidMoves_iff_witness :
    (⟨6, 3⟩ : Position) ∈ (Piece.Rook Color.White).GetValidMoves ⟨3, 3⟩ NewChessGame.board ∧
    SlideTarget NewChessGame.board Color.White ⟨3, 3⟩ IsOrthogonalStep ⟨6, 3⟩ ∧
    ¬ SlideTarget NewChessGame.board Color.White ⟨3, 3⟩ IsKingStep ⟨7, 3⟩ :=
  ⟨by decide,
   (sliding_GetValidMoves_iff Color.White ⟨3, 3⟩ NewChessGame.board (by decide) ⟨6, 3⟩).1.1
     (by decide),
   fun h => absurd
     ((sliding_GetValidMoves_iff Color.White ⟨3, 3⟩ NewChessGame.board (by decide)
       ⟨7, 3⟩).2.2.2 h) (by decide)⟩

/-- Claim C4: for a king (offsets: the 8 unit steps) or a knight (offsets: the 8
jumps `(±1, ±2)` and `(±2, ±1)`) of colour `color` on any square `s`, a square
`t` is in `GetValidMoves s board` exactly when `t - s` is one of the piece's
offsets, `t` is in bounds, and `t` is empty or holds a piece whose colour is not
`color`.  Whether `t` is a candidate depends on the board only through the
content of `t`: any other board with the same content at `t` gives the same
answer. -/
theorem step_GetValidMoves_iff (color : Color) (s t : Position) (board : Board) :
    (t ∈ (Piece.King color).GetValidMoves s board ↔
      IsKingStep ⟨t.Row - s.Row, t.Col - s.Col⟩ ∧ Board.IsWithinBounds t.Row t.Col = true ∧
      (board.GetPiece t = none ∨ ∃ p, board.GetPiece t = some p ∧ p.GetColor ≠ color)) ∧
    (t ∈ (Piece.Knight color).GetValidMoves s board ↔
      IsKnightJump ⟨t.Row - s.Row, t.Col - s.Col⟩ ∧ Board.IsWithinBounds t.Row t.Col = true ∧
      (board.GetPiece t = none ∨ ∃ p, board.GetPiece t = some p ∧ p.GetColor ≠ color)) ∧
    (∀ other : Board, other.GetPiece t = board.GetPiece t →
      (t ∈ (Piece.King color).GetValidMoves s other ↔
        t ∈ (Piece.King color).GetValidMoves s board) ∧
      (t ∈ (Piece.Knight color).GetValidMoves s other ↔
        t ∈ (Piece.Knight color).GetValidMoves s board)) := by
  have hk : ∀ b : Board, t ∈ (Piece.King color).GetValidMoves s b ↔
      IsKingStep ⟨t.Row - s.Row, t.Col - s.Col⟩ ∧ Board.IsWithinBounds t.Row t.Col = true ∧
      (b.GetPiece t = none ∨ ∃ p, b.GetPiece t = some p ∧ p.GetColor ≠ color) :=
    fun b => mem_stepMoves_offset color s t b kingDirections IsKingStep mem_kingDirections
  have hn : ∀ b : Board, t ∈ (Piece.Knight color).GetValidMoves s b ↔
      IsKnightJump ⟨t.Row - s.Row, t.Col - s.Col⟩ ∧ Board.IsWithinBounds t.Row t.Col = true ∧
      (b.GetPiece t = none ∨ ∃ p, b.GetPiece t = some p ∧ p.GetColor ≠ color) :=
    fun b => mem_stepMoves_offset color s t b knightDeltas IsKnightJump mem_knightDeltas
  refine ⟨hk board, hn board, ?_⟩
  intro other ho
  rw [hk other, hk board, hn other, hn board, ho]
  exact ⟨Iff.rfl, Iff.rfl⟩

/-- Claim C4 at the b1 knight: removing the pawn on `(1,1)` does not change
whether `(2,2)` is a candidate. -/
theorem step_GetValidMoves_iff_witness :
    ((⟨2, 2⟩ : Position) ∈ (Piece.Knight Color.White).GetValidMoves ⟨0, 1⟩ NewChessGame.board) ∧
    ((⟨2, 2⟩ : Position) ∈ (Piece.Knight Color.White).GetValidMoves ⟨0, 1⟩
      (NewChessGame.board.SetPiece ⟨1, 1⟩ none)) :=
  ⟨by decide,
   ((step_GetValidMoves_iff Color.White ⟨0, 1⟩ ⟨2, 2⟩ NewChessGame.board).2.2
      (NewChessGame.board.SetPiece ⟨1, 1⟩ none) (by decide)).2.2 (by decide)⟩

/-- Claim C5: for each of the six piece kinds, either colour, every board and
every starting position, in bounds or not, every position returned by
`GetValidMoves` has `Row` and `Col` in `[0, 7]`; this includes the two-square
advance of the pawn, which the source appends without a bounds test of its own. -/
theorem GetValidMoves_within (piece : Piece) (position : Position) (board : Board)
    (t : Position) (h : t ∈ piece.GetValidMoves position board) :
    (0 ≤ t.Row ∧ t.Row ≤ 7) ∧ (0 ≤ t.Col ∧ t.Col ≤ 7) := by
  have hslide : ∀ (color : Color) (dirs : List Position), (∀ d ∈ dirs, IsUnitStep d) →
      t ∈ slideMoves color position board dirs → Board.IsWithinBounds t.Row t.Col = true := by
    intro color dirs hd hm
    obtain ⟨d, _, k, _, _, hw, _⟩ := (mem_slideMoves color position board dirs hd t).1 hm
    exact hw
  have hw : Board.IsWithinBounds t.Row t.Col = true := by
    cases piece with
    | King color => exact ((mem_stepMoves color position board kingDirections t).1 h).choose_spec.2.2.1
    | Knight color => exact ((mem_stepMoves color position board knightDeltas t).1 h).choose_spec.2.2.1
    | Queen color =>
      exact hslide color queenDirections
        (fun d hd => isUnitStep_of_kingStep d ((mem_queenDirections d).1 hd)) h
    | Rook color =>
      exact hslide color rookDirections
        (fun d hd => isUnitStep_of_orthogonal d ((mem_rookDirections d).1 hd)) h
    | Bishop color =>
      exact hslide color bishopDirections
        (fun d hd => isUnitStep_of_diagonal d ((mem_bishopDirections d).1 hd)) h
    | Pawn color =>
      simp only [Piece.GetValidMoves, List.mem_append, mem_pawnForward, mem_pawnCaptures] at h
      rcases h with ⟨⟨hw, _⟩, (rfl | ⟨rfl, hr, _⟩)⟩ | ⟨_, hw, _⟩
      · exact hw
      · rw [within_iff] at hw ⊢
        rw [hr] at hw ⊢
        cases color <;> simp only [pawnStartRow, pawnDirection] at hw ⊢ <;>
          simp at hw ⊢ <;> omega
      · exact hw
  have := (within_iff _ _).1 hw
  omega

/-- Claim C5 at the two-square advance of the a2 pawn. -/
theorem GetValidMoves_within_witness :
    (⟨3, 0⟩ : Position) ∈ (Piece.Pawn Color.White).GetValidMoves ⟨1, 0⟩ NewChessGame.board ∧
    ((0 : Int) ≤ 3 ∧ (3 : Int) ≤ 7) ∧ ((0 : Int) ≤ 0 ∧ (0 : Int) ≤ 7) :=
  ⟨by decide,
   GetValidMoves_within (Piece.Pawn Color.White) ⟨1, 0⟩ NewChessGame.board ⟨3, 0⟩ (by decide)⟩

/-- Claim C6: for a rook, bishop or queen on a square `s` (every square, so every
in-bounds one) and a direction `d` of that piece, if the square `s + k * d` with
`k ≥ 1` holds a piece then no square `s + m * d` with `m > k` is in
`GetValidMoves s board`: the ray stops at the first occupied cell. -/
theorem sliding_ray_stops (color : Color) (s : Position) (board : Board)
    (d : Position) (k m : Nat)
    (hk : 1 ≤ k) (hkm : k < m) (p : Piece)
    (hocc : board.GetPiece ⟨s.Row + (k : Int) * d.Row, s.Col + (k : Int) * d.Col⟩ = some p) :
    (IsOrthogonalStep d →
      (⟨s.Row + (m : Int) * d.Row, s.Col + (m : Int) * d.Col⟩ : Position) ∉
        (Piece.Rook color).GetValidMoves s board) ∧
    (IsDiagonalStep d →
      (⟨s.Row + (m : Int) * d.Row, s.Col + (m : Int) * d.Col⟩ : Position) ∉
        (Piece.Bishop color).GetValidMoves s board) ∧
    (IsKingStep d →
      (⟨s.Row + (m : Int) * d.Row, s.Col + (m : Int) * d.Col⟩ : Position) ∉
        (Piece.Queen color).GetValidMoves s board) :=
  ⟨fun hd => slideMoves_blocked color s board rookDirections
      (fun e he => isUnitStep_of_orthogonal e ((mem_rookDirections e).1 he)) d
      (isUnitStep_of_orthogonal d hd) k m hk hkm p hocc,
   fun hd => slideMoves_blocked color s board bishopDirections
      (fun e he => isUnitStep_of_diagonal e ((mem_bishopDirections e).1 he)) d
      (isUnitStep_of_diagonal d hd) k m hk hkm p hocc,
   fun hd => slideMoves_blocked color s board queenDirections
      (fun e he => isUnitStep_of_kingStep e ((mem_queenDirections e).1 he)) d
      (isUnitStep_of_kingStep d hd) k m hk hkm p hocc⟩

/-- Claim C6 at a White queen on `(3,3)` of the starting array: the Black pawn on
`(6,3)` is a candidate and `(7,3)` behind it is not. -/
theorem sliding_ray_stops_witness :
    NewChessGame.board.GetPiece ⟨6, 3⟩ = some (Piece.Pawn Color.Black) ∧
    (⟨6, 3⟩ : Position) ∈ (Piece.Queen Color.White).GetValidMoves ⟨3, 3⟩ NewChessGame.board ∧
    (⟨3 + ((4 : Nat) : Int) * 1, 3 + ((4 : Nat) : Int) * 0⟩ : Position) ∉
      (Piece.Queen Color.White).GetValidMoves ⟨3, 3⟩ NewChessGame.board :=
  ⟨by decide, by decide,
   (sliding_ray_stops Color.White ⟨3, 3⟩ NewChessGame.board ⟨1, 0⟩ 3 4 (by decide)
     (by decide) (Piece.Pawn Color.Black) (by decide)).2.2
     (Or.inl (Or.inr ⟨rfl, Or.inl rfl⟩))⟩

/-! ## Board operations and game state -/

theorem InitializeBoard_grid (b : Board) (i j : Fin 8) :
    (b.InitializeBoard).grid i j =
      if i = 0 ∨ i = 1 ∨ i = 6 ∨ i = 7 then startingArray ⟨((i : Nat) : Int), ((j : Nat) : Int)⟩
      else b.grid i j := by
  fin_cases i <;> fin_cases j <;> rfl

theorem GetPiece_eq_grid (pos : Position) (h : Board.IsWithinBounds pos.Row pos.Col = true) :
    ∃ i j : Fin 8, pos = ⟨((i : Nat) : Int), ((j : Nat) : Int)⟩ ∧
      ∀ b : Board, b.GetPiece pos = b.grid i j := by
  have h2 := (within_iff _ _).1 h
  refine ⟨Board.index pos.Row h2.1.1 h2.1.2, Board.index pos.Col h2.2.1 h2.2.2, ?_, ?_⟩
  · obtain ⟨r, c⟩ := pos
    simp only [Board.index, Position.mk.injEq]
    simp only at h2
    omega
  · intro b
    simp only [Board.GetPiece, h2, and_self, dif_pos]

theorem wrap64_within_iff (a d : Int)
    (ha : -9223372036854775808 ≤ a ∧ a < 9223372036854775808) (hd : -2 ≤ d ∧ d ≤ 2) :
    (0 ≤ wrap64 (a + d) ∧ wrap64 (a + d) < 8) ↔ (0 ≤ a + d ∧ a + d < 8) := by
  unfold wrap64
  omega

theorem kingFlag_kingScanCell (board : Board) (color : Color) (flags : Bool × Bool)
    (row col : Nat) :
    kingFlag color (kingScanCell board flags row col) = true ↔
      kingFlag color flags = true ∨
        board.GetPiece ⟨(row : Int), (col : Int)⟩ = some (Piece.King color) := by
  unfold kingScanCell
  cases hp : board.GetPiece ⟨(row : Int), (col : Int)⟩ with
  | none => simp
  | some p =>
    cases p <;> cases color <;> simp [kingFlag] <;> (rename_i c; cases c <;> simp)

theorem kingFlag_rowScan (board : Board) (color : Color) (row : Nat) (cols : List Nat) :
    ∀ flags : Bool × Bool,
      kingFlag color (cols.foldl (fun flags col => kingScanCell board flags row col) flags)
          = true ↔
        kingFlag color flags = true ∨
          ∃ col ∈ cols, board.GetPiece ⟨(row : Int), (col : Int)⟩ = some (Piece.King color) := by
  induction cols with
  | nil => intro flags; simp
  | cons c cs ih =>
    intro flags
    rw [List.foldl_cons, ih, kingFlag_kingScanCell]
    simp only [List.mem_cons, exists_eq_or_imp, or_assoc]

theorem kingFlag_boardScan (board : Board) (color : Color) (cols rows : List Nat) :
    ∀ flags : Bool × Bool,
      kingFlag color (rows.foldl
          (fun flags row => cols.foldl (fun flags col => kingScanCell board flags row col) flags)
          flags) = true ↔
        kingFlag color flags = true ∨
          ∃ row ∈ rows, ∃ col ∈ cols,
            board.GetPiece ⟨(row : Int), (col : Int)⟩ = some (Piece.King color) := by
  induction rows with
  | nil => intro flags; simp
  | cons r rs ih =>
    intro flags
    rw [List.foldl_cons, ih, kingFlag_rowScan]
    simp only [List.mem_cons, exists_eq_or_imp, or_assoc]

theorem kingFlag_kingScan (board : Board) (color : Color) :
    kingFlag color (kingScan board) = true ↔
      ∃ pos : Position, board.GetPiece pos = some (Piece.King color) := by
  unfold kingScan
  rw [kingFlag_boardScan]
  have h0 : kingFlag color (false, false) = false := by cases color <;> rfl
  simp only [h0, Bool.false_eq_true, false_or, List.mem_range]
  constructor
  · rintro ⟨row, _, col, _, h⟩
    exact ⟨_, h⟩
  · rintro ⟨pos, h⟩
    have hw := (within_iff _ _).1 (within_of_GetPiece board pos _ h)
    refine ⟨pos.Row.toNat, by omega, pos.Col.toNat, by omega, ?_⟩
    have e : (⟨(pos.Row.toNat : Int), (pos.Col.toNat : Int)⟩ : Position) = pos := by
      obtain ⟨r, c⟩ := pos
      simp only [Position.mk.injEq]
      simp only at hw
      omega
    rw [e]
    exact h

/-- Claim C7: when `start` is in bounds and holds a piece `p` and `endPos` is in
bounds and different from `start`, `MovePiece start endPos` returns what
`GetPiece endPos` returned before the call, and afterwards `GetPiece endPos` is
`p`, `GetPiece start` is empty and every other cell is unchanged.  When `start`
holds no piece, or is out of bounds, it returns `nil` and leaves the board
unchanged. -/
theorem MovePiece_spec (b : Board) (start endPos : Position) :
    (∀ p : Piece, Board.IsWithinBounds start.Row start.Col = true →
      Board.IsWithinBounds endPos.Row endPos.Col = true → endPos ≠ start →
      b.GetPiece start = some p →
        (b.MovePiece start endPos).2 = b.GetPiece endPos ∧
        (b.MovePiece start endPos).1.GetPiece endPos = some p ∧
        (b.MovePiece start endPos).1.GetPiece start = none ∧
        ∀ q : Position, q ≠ start → q ≠ endPos →
          (b.MovePiece start endPos).1.GetPiece q = b.GetPiece q) ∧
    (b.GetPiece start = none → b.MovePiece start endPos = (b, none)) ∧
    (Board.IsWithinBounds start.Row start.Col = false →
      b.MovePiece start endPos = (b, none)) := by
  have hnone : b.GetPiece start = none → b.MovePiece start endPos = (b, none) := by
    intro h
    simp only [Board.MovePiece, h]
  refine ⟨?_, hnone, fun h => hnone (GetPiece_of_not_within b start h)⟩
  intro p hs he hne hp
  simp only [Board.MovePiece, hp, GetPiece_SetPiece, hs, he, true_and]
  refine ⟨?_, ?_, ?_⟩
  · simp [hne]
  · simp
  · intro q hq1 hq2
    simp [hq1, hq2]

/-- Claim C7 on the starting array: the move `(1,0) -> (3,0)`, a move from an
empty square and a move from outside the board. -/
theorem MovePiece_spec_witness :
    (NewChessGame.board.MovePiece ⟨1, 0⟩ ⟨3, 0⟩).1.GetPiece ⟨3, 0⟩
      = some (Piece.Pawn Color.White) ∧
    (NewChessGame.board.MovePiece ⟨1, 0⟩ ⟨3, 0⟩).1.GetPiece ⟨1, 0⟩ = none ∧
    NewChessGame.board.MovePiece ⟨3, 0⟩ ⟨4, 0⟩ = (NewChessGame.board, none) ∧
    NewChessGame.board.MovePiece ⟨8, 0⟩ ⟨4, 0⟩ = (NewChessGame.board, none) :=
  ⟨((MovePiece_spec NewChessGame.board ⟨1, 0⟩ ⟨3, 0⟩).1 (Piece.Pawn Color.White) (by decide)
      (by decide) (by decide) (by decide)).2.1,
   ((MovePiece_spec NewChessGame.board ⟨1, 0⟩ ⟨3, 0⟩).1 (Piece.Pawn Color.White) (by decide)
      (by decide) (by decide) (by decide)).2.2.1,
   (MovePiece_spec NewChessGame.board ⟨3, 0⟩ ⟨4, 0⟩).2.1 (by decide),
   (MovePiece_spec NewChessGame.board ⟨8, 0⟩ ⟨4, 0⟩).2.2 (by decide)⟩

/-- Claim C8: `NewChessGame` has White to move and `gameOver` false; row 0 holds
White Rook, Knight, Bishop, Queen, King, Bishop, Knight, Rook in columns 0 to 7,
row 1 eight White pawns, row 6 eight Black pawns, row 7 the Black back rank in
the same order, and all 32 cells of rows 2 to 5 are empty. -/
theorem NewChessGame_spec :
    NewChessGame.currentPlayer = Color.White ∧ NewChessGame.gameOver = false ∧
    (List.range 8).map (fun col => NewChessGame.board.GetPiece ⟨0, (col : Int)⟩) =
      [some (Piece.Rook Color.White), some (Piece.Knight Color.White),
       some (Piece.Bishop Color.White), some (Piece.Queen Color.White),
       some (Piece.King Color.White), some (Piece.Bishop Color.White),
       some (Piece.Knight Color.White), some (Piece.Rook Color.White)] ∧
    (List.range 8).map (fun col => NewChessGame.board.GetPiece ⟨1, (col : Int)⟩) =
      List.replicate 8 (some (Piece.Pawn Color.White)) ∧
    (List.range 8).map (fun col => NewChessGame.board.GetPiece ⟨6, (col : Int)⟩) =
      List.replicate 8 (some (Piece.Pawn Color.Black)) ∧
    (List.range 8).map (fun col => NewChessGame.board.GetPiece ⟨7, (col : Int)⟩) =
      [some (Piece.Rook Color.Black), some (Piece.Knight Color.Black),
       some (Piece.Bishop Color.Black), some (Piece.Queen Color.Black),
       some (Piece.King Color.Black), some (Piece.Bishop Color.Black),
       some (Piece.Knight Color.Black), some (Piece.Rook Color.Black)] ∧
    ([2, 3, 4, 5] : List Int).map
      (fun row => (List.range 8).map (fun col => NewChessGame.board.GetPiece ⟨row, (col : Int)⟩)) =
      List.replicate 4 (List.replicate 8 none) := by
  refine ⟨rfl, rfl, ?_, ?_, ?_, ?_, ?_⟩ <;> decide

theorem startingArray_none_of_row (pos : Position)
    (h : ¬ (pos.Row = 0 ∨ pos.Row = 1 ∨ pos.Row = 6 ∨ pos.Row = 7)) :
    startingArray pos = none := by
  have h0 : ¬ pos.Row = 0 := fun e => h (Or.inl e)
  have h1 : ¬ pos.Row = 1 := fun e => h (Or.inr (Or.inl e))
  have h6 : ¬ pos.Row = 6 := fun e => h (Or.inr (Or.inr (Or.inl e)))
  have h7 : ¬ pos.Row = 7 := fun e => h (Or.inr (Or.inr (Or.inr e)))
  simp only [startingArray, h0, h1, h6, h7, if_false, ite_self]

theorem startingArray_none_of_col (pos : Position) (h : ¬ (0 ≤ pos.Col ∧ pos.Col < 8)) :
    startingArray pos = none := by
  simp only [startingArray, h, if_false]

/-- Claim C9, as amended: for every board, after `InitializeBoard` every cell of
rows 0, 1, 6 and 7 holds the piece of the standard starting array, whatever it
held before, and every other cell holds what it held before the call.  Hence
when rows 2 to 5 were empty before the call the grid is the standard starting
array. -/
theorem InitializeBoard_spec (b : Board) :
    (∀ pos : Position, (b.InitializeBoard).GetPiece pos =
      if pos.Row = 0 ∨ pos.Row = 1 ∨ pos.Row = 6 ∨ pos.Row = 7 then startingArray pos
      else b.GetPiece pos) ∧
    ((∀ pos : Position, 2 ≤ pos.Row → pos.Row ≤ 5 → b.GetPiece pos = none) →
      ∀ pos : Position, (b.InitializeBoard).GetPiece pos = startingArray pos) := by
  have main : ∀ pos : Position, (b.InitializeBoard).GetPiece pos =
      if pos.Row = 0 ∨ pos.Row = 1 ∨ pos.Row = 6 ∨ pos.Row = 7 then startingArray pos
      else b.GetPiece pos := by
    intro pos
    by_cases hw : Board.IsWithinBounds pos.Row pos.Col = true
    · obtain ⟨i, j, rfl, hg⟩ := GetPiece_eq_grid pos hw
      rw [hg, hg, InitializeBoard_grid]
      have e : (i = 0 ∨ i = 1 ∨ i = 6 ∨ i = 7) ↔
          (((i : Nat) : Int) = 0 ∨ ((i : Nat) : Int) = 1 ∨ ((i : Nat) : Int) = 6 ∨
            ((i : Nat) : Int) = 7) := by
        simp only [Fin.ext_iff]
        simp only [Fin.val_zero, Fin.val_one]
        have h6 : ((6 : Fin 8) : Nat) = 6 := rfl
        have h7 : ((7 : Fin 8) : Nat) = 7 := rfl
        rw [h6, h7]
        omega
      simp only [e]
    · rw [Bool.not_eq_true] at hw
      rw [GetPiece_of_not_within _ _ hw, GetPiece_of_not_within _ _ hw]
      have hw2 := (within_false_iff _ _).1 hw
      split
      · rename_i hrow
        rw [startingArray_none_of_col]
        omega
      · rfl
  refine ⟨main, ?_⟩
  intro hmid pos
  rw [main pos]
  split
  · rfl
  · rename_i hrow
    rw [startingArray_none_of_row pos hrow]
    by_cases h25 : 2 ≤ pos.Row ∧ pos.Row ≤ 5
    · exact hmid pos h25.1 h25.2
    · apply GetPiece_of_not_within
      rw [within_false_iff]
      omega

/-- Claim C9, as amended, at the zero board and at a board with a Black queen on
`(3,3)`, which is still there afterwards. -/
theorem InitializeBoard_spec_witness :
    (Board.zero.InitializeBoard).GetPiece ⟨0, 4⟩ = some (Piece.King Color.White) ∧
    (Board.zero.InitializeBoard).GetPiece ⟨3, 3⟩ = none ∧
    ((Board.zero.SetPiece ⟨3, 3⟩ (some (Piece.Queen Color.Black))).InitializeBoard).GetPiece
      ⟨3, 3⟩ = some (Piece.Queen Color.Black) :=
  ⟨((InitializeBoard_spec Board.zero).2
      (fun pos _ _ => by simp [Board.GetPiece, Board.zero]) ⟨0, 4⟩).trans (by decide),
   ((InitializeBoard_spec Board.zero).2
      (fun pos _ _ => by simp [Board.GetPiece, Board.zero]) ⟨3, 3⟩).trans (by decide),
   ((InitializeBoard_spec (Board.zero.SetPiece ⟨3, 3⟩ (some (Piece.Queen Color.Black)))).1
      ⟨3, 3⟩).trans (by decide)⟩

/-- Claim C9 as stated fails: a White king put on `(3,3)` of the zero board is
still there after `InitializeBoard`, so rows 2 to 5 are not always empty and
the grid is not always the standard starting array. -/
theorem InitializeBoard_reset_counterexample :
    ((Board.zero.SetPiece ⟨3, 3⟩ (some (Piece.King Color.White))).InitializeBoard).GetPiece ⟨3, 3⟩
      = some (Piece.King Color.White) ∧
    ¬ (∀ b : Board, ∀ row col : Int, 2 ≤ row → row ≤ 5 →
      (b.InitializeBoard).GetPiece ⟨row, col⟩ = none) ∧
    ¬ (∀ b : Board, ∀ pos : Position, (b.InitializeBoard).GetPiece pos = startingArray pos) :=
  ⟨by decide,
   fun h => absurd
    (h (Board.zero.SetPiece ⟨3, 3⟩ (some (Piece.King Color.White))) 3 3 (by decide) (by decide))
    (by decide),
   fun h => absurd
    (h (Board.zero.SetPiece ⟨3, 3⟩ (some (Piece.King Color.White))) ⟨3, 3⟩) (by decide)⟩

/-- Claim C10: `CheckGameOver` leaves the board and `currentPlayer` unchanged, and
the flag afterwards is true exactly when it was true before, or no cell holds a
White king, or no cell holds a Black king.  So a false flag becomes true exactly
when a king colour is absent, and a true flag stays true. -/
theorem CheckGameOver_spec (cg : ChessGame) :
    (cg.CheckGameOver).board = cg.board ∧
    (cg.CheckGameOver).currentPlayer = cg.currentPlayer ∧
    ((cg.CheckGameOver).gameOver = true ↔
      cg.gameOver = true ∨
      (¬ ∃ pos : Position, cg.board.GetPiece pos = some (Piece.King Color.White)) ∨
      (¬ ∃ pos : Position, cg.board.GetPiece pos = some (Piece.King Color.Black))) ∧
    (cg.gameOver = false →
      ((cg.CheckGameOver).gameOver = true ↔
        (¬ ∃ pos : Position, cg.board.GetPiece pos = some (Piece.King Color.White)) ∨
        (¬ ∃ pos : Position, cg.board.GetPiece pos = some (Piece.King Color.Black)))) ∧
    (cg.gameOver = true → (cg.CheckGameOver).gameOver = true) := by
  have hW := kingFlag_kingScan cg.board Color.White
  have hB := kingFlag_kingScan cg.board Color.Black
  simp only [kingFlag] at hW hB
  rw [← hW, ← hB]
  obtain ⟨board, player, over⟩ := cg
  simp only [ChessGame.CheckGameOver]
  cases h1 : (kingScan board).1 <;> cases h2 : (kingScan board).2 <;> cases over <;> simp

/-- Claim C10 at a board without kings, with the flag true and false, and at the
new game, where both kings stand and the flag stays false. -/
theorem CheckGameOver_spec_witness :
    (ChessGame.CheckGameOver ⟨Board.zero, Color.White, true⟩).gameOver = true ∧
    (ChessGame.CheckGameOver ⟨Board.zero, Color.White, false⟩).gameOver = true ∧
    ¬ ((NewChessGame.CheckGameOver).gameOver = true) :=
  ⟨(CheckGameOver_spec ⟨Board.zero, Color.White, true⟩).2.2.2.2 rfl,
   ((CheckGameOver_spec ⟨Board.zero, Color.White, false⟩).2.2.2.1 rfl).2
     (Or.inl (by rintro ⟨pos, h⟩; simp [Board.GetPiece, Board.zero] at h)),
   fun h => by
    rcases ((CheckGameOver_spec NewChessGame).2.2.2.1 rfl).1 h with hw | hb
    · exact hw ⟨⟨0, 4⟩, by decide⟩
    · exact hb ⟨⟨7, 4⟩, by decide⟩⟩

/-! ## Turn handling -/

/-- Claim C19: `SwitchPlayer` changes the side to move to the other colour,
White to Black and Black to White, whatever the board and the `gameOver` flag,
leaves the board and `gameOver` unchanged, and applied twice gives back the
state it started from. -/
theorem SwitchPlayer_spec (cg : ChessGame) :
    (cg.SwitchPlayer).currentPlayer = cg.currentPlayer.other ∧
    (cg.SwitchPlayer).board = cg.board ∧
    (cg.SwitchPlayer).gameOver = cg.gameOver ∧
    cg.SwitchPlayer.SwitchPlayer = cg := by
  obtain ⟨board, player, over⟩ := cg
  cases player <;> simp [ChessGame.SwitchPlayer, Color.other]

theorem playParsed_of_invalid (cg : ChessGame) (start endPos : Position)
    (h : cg.IsValidMove start endPos = false) : cg.playParsed start endPos = cg := by
  simp [ChessGame.playParsed, h]

theorem CheckGameOver_board (cg : ChessGame) : (cg.CheckGameOver).board = cg.board := by
  simp only [ChessGame.CheckGameOver]
  split
  · rfl
  · split <;> rfl

theorem CheckGameOver_currentPlayer (cg : ChessGame) :
    (cg.CheckGameOver).currentPlayer = cg.currentPlayer := by
  simp only [ChessGame.CheckGameOver]
  split
  · rfl
  · split <;> rfl

theorem CheckGameOver_gameOver (cg : ChessGame) :
    (cg.CheckGameOver).gameOver = true ↔
      cg.gameOver = true ∨ KingMissing cg.board Color.White ∨
        KingMissing cg.board Color.Black := by
  have hW := kingFlag_kingScan cg.board Color.White
  have hB := kingFlag_kingScan cg.board Color.Black
  simp only [kingFlag] at hW hB
  simp only [KingMissing]
  rw [← hW, ← hB]
  obtain ⟨board, player, over⟩ := cg
  simp only [ChessGame.CheckGameOver]
  cases h1 : (kingScan board).1 <;> cases h2 : (kingScan board).2 <;> cases over <;> simp

theorem playParsed_of_valid (cg : ChessGame) (start endPos : Position)
    (h : cg.IsValidMove start endPos = true) :
    (cg.playParsed start endPos).board = (cg.board.MovePiece start endPos).1 ∧
    (cg.playParsed start endPos).gameOver =
      (ChessGame.CheckGameOver
        ⟨(cg.board.MovePiece start endPos).1, cg.currentPlayer, cg.gameOver⟩).gameOver ∧
    ((cg.playParsed start endPos).gameOver = false →
      (cg.playParsed start endPos).currentPlayer = cg.currentPlayer.other) ∧
    ((cg.playParsed start endPos).gameOver = true →
      (cg.playParsed start endPos).currentPlayer = cg.currentPlayer) := by
  simp only [ChessGame.playParsed, h, Bool.not_true, Bool.false_eq_true, if_false]
  cases hg : (ChessGame.CheckGameOver
      ⟨(cg.board.MovePiece start endPos).1, cg.currentPlayer, cg.gameOver⟩).gameOver
  · simp only [Bool.not_false, if_true]
    have hb := CheckGameOver_board
      ⟨(cg.board.MovePiece start endPos).1, cg.currentPlayer, cg.gameOver⟩
    have hp := CheckGameOver_currentPlayer
      ⟨(cg.board.MovePiece start endPos).1, cg.currentPlayer, cg.gameOver⟩
    simp only at hb hp
    refine ⟨?_, ?_, ?_, ?_⟩
    · simp only [ChessGame.SwitchPlayer]; split <;> exact hb
    · simp only [ChessGame.SwitchPlayer]; split <;> exact hg
    · intro _
      simp only [ChessGame.SwitchPlayer]
      split
      · rename_i hc; rw [hp] at hc; rw [hc]; rfl
      · rename_i hc
        rw [hp] at hc
        cases hcp : cg.currentPlayer
        · exact absurd hcp hc
        · rfl
    · intro hc
      exfalso
      simp only [ChessGame.SwitchPlayer] at hc
      split at hc <;> simp only at hc <;> rw [hg] at hc <;> exact Bool.noConfusion hc
  · simp only [Bool.not_true, Bool.false_eq_true, if_false]
    refine ⟨CheckGameOver_board _, hg, ?_, fun _ => CheckGameOver_currentPlayer _⟩
    intro hc
    rw [hg] at hc
    exact Bool.noConfusion hc

/-- Claim C11: one turn on an already-parsed pair, as `PlayTurn` runs it after
`ParseInput` succeeded.  When `IsValidMove start endPos` is false the game state
is unchanged.  When it is true the new board is the result of
`MovePiece start endPos`, `gameOver` is the result of `CheckGameOver` on that
board, and `currentPlayer` is the other colour when `gameOver` is false
afterwards and still the mover's colour when it is true. -/
theorem playParsed_spec (cg : ChessGame) (start endPos : Position) :
    (∀ input : GoString, ChessGame.ParseInput input = Except.ok (start, endPos) →
      cg.PlayTurn (some input) = cg.playParsed start endPos) ∧
    (cg.IsValidMove start endPos = false → cg.playParsed start endPos = cg) ∧
    (cg.IsValidMove start endPos = true →
      (cg.playParsed start endPos).board = (cg.board.MovePiece start endPos).1 ∧
      (cg.playParsed start endPos).gameOver =
        (ChessGame.CheckGameOver
          ⟨(cg.board.MovePiece start endPos).1, cg.currentPlayer, cg.gameOver⟩).gameOver ∧
      ((cg.playParsed start endPos).gameOver = false →
        (cg.playParsed start endPos).currentPlayer = cg.currentPlayer.other) ∧
      ((cg.playParsed start endPos).gameOver = true →
        (cg.playParsed start endPos).currentPlayer = cg.currentPlayer)) := by
  refine ⟨?_, playParsed_of_invalid cg start endPos, playParsed_of_valid cg start endPos⟩
  intro input hin
  simp only [ChessGame.PlayTurn, hin]

/-- Claim C11 at the new game: the opening `e2 to e4` moves the pawn and gives
the turn to Black, and a move from an empty square changes nothing. -/
theorem playParsed_spec_witness :
    NewChessGame.PlayTurn (some (ascii "e2 to e4")) = NewChessGame.playParsed ⟨1, 4⟩ ⟨3, 4⟩ ∧
    (NewChessGame.playParsed ⟨1, 4⟩ ⟨3, 4⟩).board
      = (NewChessGame.board.MovePiece ⟨1, 4⟩ ⟨3, 4⟩).1 ∧
    NewChessGame.playParsed ⟨3, 4⟩ ⟨4, 4⟩ = NewChessGame :=
  ⟨(playParsed_spec NewChessGame ⟨1, 4⟩ ⟨3, 4⟩).1 (ascii "e2 to e4") (by rfl),
   ((playParsed_spec NewChessGame ⟨1, 4⟩ ⟨3, 4⟩).2.2 (by decide)).1,
   (playParsed_spec NewChessGame ⟨3, 4⟩ ⟨4, 4⟩).2.1 (by decide)⟩

/-! ## Accepted moves -/

theorem GetPiece_cell (b : Board) (i j : Fin 8) :
    b.GetPiece ⟨((i : Nat) : Int), ((j : Nat) : Int)⟩ = b.grid i j := by
  have h : ((0 : Int) ≤ ((i : Nat) : Int) ∧ ((i : Nat) : Int) < 8) ∧
      ((0 : Int) ≤ ((j : Nat) : Int) ∧ ((j : Nat) : Int) < 8) := by omega
  simp only [Board.GetPiece, h, and_self, dif_pos, Board.index, Int.toNat_ofNat, Fin.eta]

theorem raySquare_ne_start (row col : Int) (d : Position) (hd : IsUnitStep d) (k : Nat)
    (hk : 1 ≤ k) : raySquare row col d.Row d.Col k ≠ ⟨row, col⟩ := by
  obtain ⟨hr, hc⟩ := unitStep_cases d hd
  obtain ⟨dr, dc⟩ := d
  simp only [IsUnitStep] at hd
  simp only [raySquare, ne_eq, Position.mk.injEq] at hr hc ⊢
  rintro ⟨h1, h2⟩
  rcases hr with hr | hr | hr <;> rcases hc with hc | hc | hc <;> subst hr hc <;> omega

theorem mem_GetValidMoves_target (piece : Piece) (s t : Position) (board : Board)
    (h : t ∈ piece.GetValidMoves s board) :
    Board.IsWithinBounds t.Row t.Col = true ∧ t ≠ s ∧
      freeOrEnemy piece.GetColor (board.GetPiece t) = true := by
  have hslide : ∀ (color : Color) (dirs : List Position), (∀ d ∈ dirs, IsUnitStep d) →
      t ∈ slideMoves color s board dirs →
      Board.IsWithinBounds t.Row t.Col = true ∧ t ≠ s ∧
        freeOrEnemy color (board.GetPiece t) = true := by
    intro color dirs hd hm
    obtain ⟨d, hdm, k, hk, ht, hw, _, hf⟩ := (mem_slideMoves color s board dirs hd t).1 hm
    refine ⟨hw, ?_, hf⟩
    rw [ht]
    exact raySquare_ne_start s.Row s.Col d (hd d hdm) k hk
  have hstep : ∀ (color : Color) (deltas : List Position) (Off : Position → Prop),
      (∀ d, d ∈ deltas ↔ Off d) → ¬ Off ⟨0, 0⟩ → t ∈ stepMoves color s board deltas →
      Board.IsWithinBounds t.Row t.Col = true ∧ t ≠ s ∧
        freeOrEnemy color (board.GetPiece t) = true := by
    intro color deltas Off hoff h0 hm
    obtain ⟨ho, hw, hf⟩ := (mem_stepMoves_offset color s t board deltas Off hoff).1 hm
    refine ⟨hw, ?_, (freeOrEnemy_iff _ _).2 hf⟩
    rintro rfl
    simp only [sub_self] at ho
    exact h0 ho
  cases piece with
  | King color =>
    exact hstep color kingDirections IsKingStep mem_kingDirections
      (by simp [IsKingStep, IsOrthogonalStep, IsDiagonalStep]) h
  | Knight color =>
    exact hstep color knightDeltas IsKnightJump mem_knightDeltas (by simp [IsKnightJump]) h
  | Queen color =>
    exact hslide color queenDirections
      (fun d hd => isUnitStep_of_kingStep d ((mem_queenDirections d).1 hd)) h
  | Rook color =>
    exact hslide color rookDirections
      (fun d hd => isUnitStep_of_orthogonal d ((mem_rookDirections d).1 hd)) h
  | Bishop color =>
    exact hslide color bishopDirections
      (fun d hd => isUnitStep_of_diagonal d ((mem_bishopDirections d).1 hd)) h
  | Pawn color =>
    simp only [Piece.GetValidMoves, List.mem_append, mem_pawnForward, mem_pawnCaptures] at h
    have hdir : pawnDirection color = 1 ∨ pawnDirection color = -1 := by
      cases color
      · exact Or.inl rfl
      · exact Or.inr rfl
    obtain ⟨sr, sc⟩ := s
    simp only [Piece.GetColor]
    rcases h with ⟨⟨hw, hp⟩, (rfl | ⟨rfl, hr, hp2⟩)⟩ | ⟨hsq, hw, p, hp, hc⟩
    · refine ⟨hw, ?_, by simp [hp, freeOrEnemy]⟩
      simp only [ne_eq, Position.mk.injEq]
      omega
    · refine ⟨?_, ?_, by simp [hp2, freeOrEnemy]⟩
      · rw [within_iff] at hw ⊢
        simp only at hr hw ⊢
        rw [hr] at hw ⊢
        cases color <;> simp only [pawnStartRow, pawnDirection] at hw ⊢ <;>
          simp at hw ⊢ <;> omega
      · simp only [ne_eq, Position.mk.injEq]
        omega
    · refine ⟨hw, ?_, by simp [hp, freeOrEnemy, hc]⟩
      rcases hsq with rfl | rfl <;> simp only [ne_eq, Position.mk.injEq] <;> omega

theorem IsValidMove_target (cg : ChessGame) (start endPos : Position)
    (h : cg.IsValidMove start endPos = true) :
    ∃ mover : Piece, cg.board.GetPiece start = some mover ∧
      mover.GetColor = cg.currentPlayer ∧
      Board.IsWithinBounds start.Row start.Col = true ∧
      Board.IsWithinBounds endPos.Row endPos.Col = true ∧ endPos ≠ start ∧
      freeOrEnemy mover.GetColor (cg.board.GetPiece endPos) = true := by
  cases hp : cg.board.GetPiece start with
  | none => simp [ChessGame.IsValidMove, hp] at h
  | some mover =>
    by_cases hc : mover.GetColor = cg.currentPlayer
    · simp only [ChessGame.IsValidMove, hp, hc, bne_self_eq_false, Bool.false_eq_true,
        if_false, List.any_eq_true, beq_iff_eq, exists_eq_right] at h
      obtain ⟨hw, hne, hf⟩ := mem_GetValidMoves_target mover start endPos cg.board h
      exact ⟨mover, rfl, hc, within_of_GetPiece cg.board start mover hp, hw, hne, hf⟩
    · simp [ChessGame.IsValidMove, hp, hc] at h

theorem MovePiece_GetPiece (b : Board) (start endPos : Position) (p : Piece)
    (hp : b.GetPiece start = some p) (q : Position) :
    (b.MovePiece start endPos).1.GetPiece q =
      if q = start then none
      else if Board.IsWithinBounds endPos.Row endPos.Col = true ∧ q = endPos then some p
      else b.GetPiece q := by
  have hs := within_of_GetPiece b start p hp
  simp only [Board.MovePiece, hp, GetPiece_SetPiece, hs, true_and]

theorem MovePiece_occupied (b : Board) (p : Piece) (si sj ei ej : Fin 8)
    (hp : b.grid si sj = some p) (hne : (ei, ej) ≠ (si, sj)) :
    (b.MovePiece ⟨((si : Nat) : Int), ((sj : Nat) : Int)⟩
        ⟨((ei : Nat) : Int), ((ej : Nat) : Int)⟩).1.occupied =
      insert (ei, ej) (b.occupied.erase (si, sj)) := by
  have hp2 : b.GetPiece ⟨((si : Nat) : Int), ((sj : Nat) : Int)⟩ = some p := by
    rw [GetPiece_cell]; exact hp
  have hwe : Board.IsWithinBounds ((ei : Nat) : Int) ((ej : Nat) : Int) = true := by
    rw [within_iff]; omega
  ext ⟨i, j⟩
  simp only [Board.occupied, Finset.mem_filter, Finset.mem_univ, true_and, Finset.mem_insert,
    Finset.mem_erase]
  rw [← GetPiece_cell, MovePiece_GetPiece b _ _ p hp2, ← GetPiece_cell b i j]
  simp only [hwe, true_and, Position.mk.injEq, Nat.cast_inj, Fin.val_inj, Prod.mk.injEq, ne_eq]
  by_cases h1 : i = si ∧ j = sj
  · obtain ⟨rfl, rfl⟩ := h1
    have h2 : ¬ (i = ei ∧ j = ej) := by
      rintro ⟨rfl, rfl⟩
      exact hne rfl
    simp [h2]
  · by_cases h2 : i = ei ∧ j = ej
    · obtain ⟨rfl, rfl⟩ := h2
      simp [h1]
    · simp [h1, h2]

theorem MovePiece_pieceCount (b : Board) (start endPos : Position) (p : Piece)
    (hp : b.GetPiece start = some p)
    (he : Board.IsWithinBounds endPos.Row endPos.Col = true) (hne : endPos ≠ start) :
    (b.MovePiece start endPos).1.pieceCount +
        (if (b.GetPiece endPos).isSome = true then 1 else 0) = b.pieceCount := by
  obtain ⟨si, sj, rfl, hgs⟩ := GetPiece_eq_grid start (within_of_GetPiece b start p hp)
  obtain ⟨ei, ej, rfl, hge⟩ := GetPiece_eq_grid endPos he
  have hcell : (ei, ej) ≠ (si, sj) := by
    intro h
    apply hne
    rw [Prod.mk.injEq] at h
    rw [h.1, h.2]
  rw [hgs] at hp
  rw [hge]
  simp only [Board.pieceCount]
  rw [MovePiece_occupied b p si sj ei ej hp hcell]
  have hs : (si, sj) ∈ b.occupied := by
    simp [Board.occupied, hp]
  by_cases hocc : (b.grid ei ej).isSome = true
  · have hmem : (ei, ej) ∈ b.occupied.erase (si, sj) := by
      simp [Board.occupied, hocc, hcell]
    rw [Finset.insert_eq_of_mem hmem, Finset.card_erase_of_mem hs, if_pos hocc]
    have : 0 < b.occupied.card := Finset.card_pos.2 ⟨_, hs⟩
    omega
  · have hmem : (ei, ej) ∉ b.occupied.erase (si, sj) := by
      simp [Board.occupied, hocc]
    rw [Finset.card_insert_of_not_mem hmem, Finset.card_erase_of_mem hs, if_neg hocc]
    have : 0 < b.occupied.card := Finset.card_pos.2 ⟨_, hs⟩
    omega

/-- Claim C20: when `IsValidMove start endPos` is true, `endPos` is in bounds and
different from `start`, and it is empty or holds a piece of the colour opposite
to the mover, so never a piece of the mover's own colour.  The `MovePiece` that
follows leaves the mover on `endPos`, and the number of pieces on the board
drops by exactly 1 when `endPos` was occupied and by 0 otherwise. -/
theorem IsValidMove_safe (cg : ChessGame) (start endPos : Position)
    (h : cg.IsValidMove start endPos = true) :
    Board.IsWithinBounds endPos.Row endPos.Col = true ∧ endPos ≠ start ∧
    ∃ mover : Piece, cg.board.GetPiece start = some mover ∧
      mover.GetColor = cg.currentPlayer ∧
      (cg.board.GetPiece endPos = none ∨
        ∃ p, cg.board.GetPiece endPos = some p ∧ p.GetColor = mover.GetColor.other) ∧
      (∀ p, cg.board.GetPiece endPos = some p → p.GetColor ≠ mover.GetColor) ∧
      (cg.board.MovePiece start endPos).1.GetPiece endPos = some mover ∧
      (cg.board.MovePiece start endPos).1.pieceCount +
        (if (cg.board.GetPiece endPos).isSome = true then 1 else 0) = cg.board.pieceCount := by
  obtain ⟨mover, hp, hc, _, hwe, hne, hf⟩ := IsValidMove_target cg start endPos h
  refine ⟨hwe, hne, mover, hp, hc, ?_, ?_, ?_, MovePiece_pieceCount cg.board start endPos mover
    hp hwe hne⟩
  · rcases (freeOrEnemy_iff _ _).1 hf with h0 | ⟨p, hq, hcol⟩
    · exact Or.inl h0
    · refine Or.inr ⟨p, hq, ?_⟩
      revert hcol
      cases p.GetColor <;> cases mover.GetColor <;> simp [Color.other]
  · intro p hq
    rcases (freeOrEnemy_iff _ _).1 hf with h0 | ⟨p2, hq2, hcol⟩
    · rw [h0] at hq; exact Option.noConfusion hq
    · rw [hq] at hq2
      cases hq2
      exact hcol
  · rw [MovePiece_GetPiece cg.board start endPos mover hp]
    simp [hne, hwe]

/-- Claim C20 at the opening `e2 to e4` of the new game. -/
theorem IsValidMove_safe_witness :
    NewChessGame.IsValidMove ⟨1, 4⟩ ⟨3, 4⟩ = true ∧
    Board.IsWithinBounds 3 4 = true ∧ (⟨3, 4⟩ : Position) ≠ ⟨1, 4⟩ :=
  ⟨by decide,
   (IsValidMove_safe NewChessGame ⟨1, 4⟩ ⟨3, 4⟩ (by decide)).1,
   (IsValidMove_safe NewChessGame ⟨1, 4⟩ ⟨3, 4⟩ (by decide)).2.1⟩

/-! ## Kings and the end of the game -/

theorem MovePiece_source (b : Board) (start endPos q : Position) (x : Piece)
    (h : (b.MovePiece start endPos).1.GetPiece q = some x) :
    b.GetPiece q = some x ∨ (b.GetPiece start = some x ∧ q = endPos ∧ q ≠ start) := by
  cases hp : b.GetPiece start with
  | none =>
    simp only [Board.MovePiece, hp] at h
    exact Or.inl h
  | some p =>
    rw [MovePiece_GetPiece b start endPos p hp] at h
    by_cases h1 : q = start
    · simp [h1] at h
    · by_cases h2 : Board.IsWithinBounds endPos.Row endPos.Col = true ∧ q = endPos
      · obtain ⟨hw, rfl⟩ := h2
        simp only [h1, hw, and_self, if_true, if_false, Option.some.injEq] at h
        subst h
        exact Or.inr ⟨rfl, rfl, h1⟩
      · simp only [h1, h2, if_false] at h
        exact Or.inl h

theorem MovePiece_kept (b : Board) (start endPos q : Position) (x : Piece)
    (h : (b.MovePiece start endPos).1.GetPiece q = some x) (hq : q ≠ endPos) :
    b.GetPiece q = some x ∧ (∀ p, b.GetPiece start = some p → q ≠ start) := by
  cases hp : b.GetPiece start with
  | none =>
    simp only [Board.MovePiece, hp] at h
    exact ⟨h, fun p hp2 => Option.noConfusion hp2⟩
  | some p =>
    rw [MovePiece_GetPiece b start endPos p hp] at h
    by_cases h1 : q = start
    · simp [h1] at h
    · simp only [h1, hq, and_false, if_false] at h
      exact ⟨h, fun _ _ => h1⟩

theorem MovePiece_atMostOneKing (b : Board) (start endPos : Position) (color : Color)
    (h : AtMostOneKing b color) : AtMostOneKing (b.MovePiece start endPos).1 color := by
  intro q1 q2 h1 h2
  by_cases e1 : q1 = endPos
  · by_cases e2 : q2 = endPos
    · rw [e1, e2]
    · exfalso
      obtain ⟨hk2, hns⟩ := MovePiece_kept b start endPos q2 _ h2 e2
      rcases MovePiece_source b start endPos q1 _ h1 with hk1 | ⟨hs, _, _⟩
      · exact e2 ((h q2 q1 hk2 hk1).trans e1)
      · exact hns _ hs (h q2 start hk2 hs)
  · obtain ⟨hk1, hns⟩ := MovePiece_kept b start endPos q1 _ h1 e1
    rcases MovePiece_source b start endPos q2 _ h2 with hk2 | ⟨hs, _, _⟩
    · exact h q1 q2 hk1 hk2
    · exact absurd (h q1 start hk1 hs) (hns _ hs)

theorem MovePiece_kingMissing (b : Board) (start endPos : Position) (color : Color)
    (h : KingMissing b color) : KingMissing (b.MovePiece start endPos).1 color := by
  rintro ⟨q, hq⟩
  rcases MovePiece_source b start endPos q _ hq with hk | ⟨hs, _, _⟩
  · exact h ⟨q, hk⟩
  · exact h ⟨start, hs⟩

theorem NewChessGame_king_cell (color : Color) (i j : Fin 8)
    (h : NewChessGame.board.grid i j = some (Piece.King color)) :
    i = (if color = Color.White then 0 else 7) ∧ j = 4 := by
  revert i j
  cases color <;> decide

theorem NewChessGame_atMostOneKing (color : Color) :
    AtMostOneKing NewChessGame.board color := by
  intro p q hp hq
  obtain ⟨i, j, rfl, hg⟩ := GetPiece_eq_grid p (within_of_GetPiece _ _ _ hp)
  obtain ⟨k, l, rfl, hg2⟩ := GetPiece_eq_grid q (within_of_GetPiece _ _ _ hq)
  rw [hg] at hp
  rw [hg2] at hq
  obtain ⟨h1, h2⟩ := NewChessGame_king_cell color i j hp
  obtain ⟨h3, h4⟩ := NewChessGame_king_cell color k l hq
  rw [h1, h2, h3, h4]

theorem NewChessGame_kings_present (color : Color) : ¬ KingMissing NewChessGame.board color := by
  intro h
  cases color
  · exact h ⟨⟨0, 4⟩, by decide⟩
  · exact h ⟨⟨7, 4⟩, by decide⟩

theorem playParsed_gameOver (cg : ChessGame) (start endPos : Position) :
    (cg.playParsed start endPos).gameOver = true ↔
      cg.gameOver = true ∨
        (cg.IsValidMove start endPos = true ∧
          (KingMissing (cg.board.MovePiece start endPos).1 Color.White ∨
            KingMissing (cg.board.MovePiece start endPos).1 Color.Black)) := by
  cases hv : cg.IsValidMove start endPos
  · rw [playParsed_of_invalid cg start endPos hv]
    simp
  · rw [(playParsed_of_valid cg start endPos hv).2.1, CheckGameOver_gameOver]
    simp

theorem playParsed_invariant (cg : ChessGame) (start endPos : Position)
    (hW : AtMostOneKing cg.board Color.White) (hB : AtMostOneKing cg.board Color.Black)
    (hover : cg.gameOver = true ↔
      KingMissing cg.board Color.White ∨ KingMissing cg.board Color.Black) :
    AtMostOneKing (cg.playParsed start endPos).board Color.White ∧
    AtMostOneKing (cg.playParsed start endPos).board Color.Black ∧
    ((cg.playParsed start endPos).gameOver = true ↔
      KingMissing (cg.playParsed start endPos).board Color.White ∨
        KingMissing (cg.playParsed start endPos).board Color.Black) := by
  cases hv : cg.IsValidMove start endPos
  · rw [playParsed_of_invalid cg start endPos hv]
    exact ⟨hW, hB, hover⟩
  · have hg := playParsed_gameOver cg start endPos
    rw [(playParsed_of_valid cg start endPos hv).1] at *
    refine ⟨MovePiece_atMostOneKing _ _ _ _ hW, MovePiece_atMostOneKing _ _ _ _ hB, ?_⟩
    rw [hg]
    constructor
    · rintro (h | ⟨_, h⟩)
      · rcases hover.1 h with h1 | h1
        · exact Or.inl (MovePiece_kingMissing _ _ _ _ h1)
        · exact Or.inr (MovePiece_kingMissing _ _ _ _ h1)
      · exact h
    · intro h
      exact Or.inr ⟨hv, h⟩

theorem stepsTo_gameOver (cg later : ChessGame) (h : StepsTo cg later)
    (hover : cg.gameOver = true) : later.gameOver = true := by
  induction h with
  | refl => exact hover
  | step start endPos _ ih =>
    rw [playParsed_gameOver]
    exact Or.inl ih

theorem stepsTo_invariant (cg : ChessGame) (h : StepsTo NewChessGame cg) :
    AtMostOneKing cg.board Color.White ∧ AtMostOneKing cg.board Color.Black ∧
    (cg.gameOver = true ↔
      KingMissing cg.board Color.White ∨ KingMissing cg.board Color.Black) := by
  induction h with
  | refl =>
    refine ⟨NewChessGame_atMostOneKing _, NewChessGame_atMostOneKing _, ?_⟩
    constructor
    · intro h
      exact absurd h (by decide)
    · rintro (h | h)
      · exact absurd h (NewChessGame_kings_present _)
      · exact absurd h (NewChessGame_kings_present _)
  | step start endPos _ ih =>
    exact playParsed_invariant _ start endPos ih.1 ih.2.1 ih.2.2

/-- Claim C12: in every game state reachable from `NewChessGame` by a finite
sequence of turn steps on arbitrary position pairs, the board holds at most one
king of each colour, and `gameOver` is true exactly when the White king or the
Black king is missing from the board; once `gameOver` is true it is true in
every later state. -/
theorem Reachable_invariant (cg : ChessGame) (h : Reachable cg) :
    AtMostOneKing cg.board Color.White ∧ AtMostOneKing cg.board Color.Black ∧
    (cg.gameOver = true ↔
      KingMissing cg.board Color.White ∨ KingMissing cg.board Color.Black) ∧
    (∀ later : ChessGame, StepsTo cg later → cg.gameOver = true → later.gameOver = true) :=
  ⟨(stepsTo_invariant cg h).1, (stepsTo_invariant cg h).2.1, (stepsTo_invariant cg h).2.2,
   fun later hl hover => stepsTo_gameOver cg later hl hover⟩

/-- Claim C12 after the turn steps `e2 to e4` and `e7 to e5`. -/
theorem Reachable_invariant_witness :
    Reachable ((NewChessGame.playParsed ⟨1, 4⟩ ⟨3, 4⟩).playParsed ⟨6, 4⟩ ⟨4, 4⟩) ∧
    AtMostOneKing ((NewChessGame.playParsed ⟨1, 4⟩ ⟨3, 4⟩).playParsed ⟨6, 4⟩ ⟨4, 4⟩).board
      Color.White :=
  ⟨StepsTo.step ⟨6, 4⟩ ⟨4, 4⟩ (StepsTo.step ⟨1, 4⟩ ⟨3, 4⟩ StepsTo.refl),
   (Reachable_invariant _
     (StepsTo.step ⟨6, 4⟩ ⟨4, 4⟩ (StepsTo.step ⟨1, 4⟩ ⟨3, 4⟩ StepsTo.refl))).1⟩

/-- Claim C13, as amended: in every game state with White to move and `gameOver`
false whose board has a White king on `(4,4)` and a Black king on `(4,5)`,
`IsValidMove (4,4) (4,5)` is true, `MovePiece (4,4) (4,5)` returns the Black
king, and the `CheckGameOver` that follows sets `gameOver` to true exactly when
no other cell of the board holds a Black king. -/
theorem king_capture_spec (cg : ChessGame) (hplayer : cg.currentPlayer = Color.White)
    (hover : cg.gameOver = false)
    (h44 : cg.board.GetPiece ⟨4, 4⟩ = some (Piece.King Color.White))
    (h45 : cg.board.GetPiece ⟨4, 5⟩ = some (Piece.King Color.Black)) :
    cg.IsValidMove ⟨4, 4⟩ ⟨4, 5⟩ = true ∧
    (cg.board.MovePiece ⟨4, 4⟩ ⟨4, 5⟩).2 = some (Piece.King Color.Black) ∧
    ((ChessGame.CheckGameOver
        ⟨(cg.board.MovePiece ⟨4, 4⟩ ⟨4, 5⟩).1, cg.currentPlayer, cg.gameOver⟩).gameOver = true ↔
      ∀ pos : Position, cg.board.GetPiece pos = some (Piece.King Color.Black) →
        pos = ⟨4, 5⟩) := by
  have hnew : ∀ q : Position, (cg.board.MovePiece ⟨4, 4⟩ ⟨4, 5⟩).1.GetPiece q =
      if q = ⟨4, 4⟩ then none
      else if q = ⟨4, 5⟩ then some (Piece.King Color.White) else cg.board.GetPiece q := by
    intro q
    rw [MovePiece_GetPiece cg.board ⟨4, 4⟩ ⟨4, 5⟩ _ h44]
    have hw : Board.IsWithinBounds 4 5 = true := by decide
    simp only [hw, true_and]
  refine ⟨?_, ?_, ?_⟩
  · have hmem : (⟨4, 5⟩ : Position) ∈
        (Piece.King Color.White).GetValidMoves ⟨4, 4⟩ cg.board := by
      apply (mem_stepMoves_offset Color.White ⟨4, 4⟩ ⟨4, 5⟩ cg.board kingDirections IsKingStep
        mem_kingDirections).2
      refine ⟨?_, by decide, Or.inr ⟨_, h45, by decide⟩⟩
      left; left
      exact ⟨by decide, Or.inl (by decide)⟩
    simp only [ChessGame.IsValidMove, h44, hplayer, Piece.GetColor, bne_self_eq_false,
      Bool.false_eq_true, if_false, List.any_eq_true, beq_iff_eq, exists_eq_right]
    exact hmem
  · simp only [Board.MovePiece, h44, h45]
  · rw [CheckGameOver_gameOver]
    simp only [hover, Bool.false_eq_true, false_or, KingMissing]
    constructor
    · rintro (h | h)
      · exact absurd ⟨⟨4, 5⟩, by rw [hnew]; simp⟩ h
      · intro pos hpos
        by_contra hne
        apply h
        refine ⟨pos, ?_⟩
        rw [hnew]
        have h1 : pos ≠ ⟨4, 4⟩ := by
          rintro rfl
          rw [h44] at hpos
          exact absurd hpos (by decide)
        simp only [h1, hne, if_false]
        exact hpos
    · intro h
      right
      rintro ⟨q, hq⟩
      rw [hnew] at hq
      by_cases h1 : q = ⟨4, 4⟩
      · simp [h1] at hq
      · by_cases h2 : q = ⟨4, 5⟩
        · simp [h1, h2] at hq
        · simp only [h1, h2, if_false] at hq
          exact h2 (h q hq)

/-- Claim C13, as amended, on a board that holds only the two kings. -/
theorem king_capture_spec_witness :
    ChessGame.IsValidMove
      ⟨(Board.zero.SetPiece ⟨4, 4⟩ (some (Piece.King Color.White))).SetPiece ⟨4, 5⟩
        (some (Piece.King Color.Black)), Color.White, false⟩ ⟨4, 4⟩ ⟨4, 5⟩ = true ∧
    (ChessGame.CheckGameOver
      ⟨(((Board.zero.SetPiece ⟨4, 4⟩ (some (Piece.King Color.White))).SetPiece ⟨4, 5⟩
        (some (Piece.King Color.Black))).MovePiece ⟨4, 4⟩ ⟨4, 5⟩).1, Color.White,
        false⟩).gameOver = true :=
  ⟨(king_capture_spec
      ⟨(Board.zero.SetPiece ⟨4, 4⟩ (some (Piece.King Color.White))).SetPiece ⟨4, 5⟩
        (some (Piece.King Color.Black)), Color.White, false⟩ rfl rfl (by decide)
      (by decide)).1,
   by decide⟩

/-- Claim C13 as stated fails on the position `TestKingCapture` sets up: White is
to move, `gameOver` is false, a White king stands on `(4,4)` and a Black king on
`(4,5)`, yet after the capture `gameOver` is still false, the Black king of the
starting array being still on `(7,4)`. -/
theorem king_capture_counterexample :
    kingCaptureGame.currentPlayer = Color.White ∧ kingCaptureGame.gameOver = false ∧
    kingCaptureGame.board.GetPiece ⟨4, 4⟩ = some (Piece.King Color.White) ∧
    kingCaptureGame.board.GetPiece ⟨4, 5⟩ = some (Piece.King Color.Black) ∧
    kingCaptureGame.IsValidMove ⟨4, 4⟩ ⟨4, 5⟩ = true ∧
    (ChessGame.CheckGameOver
      ⟨(kingCaptureGame.board.MovePiece ⟨4, 4⟩ ⟨4, 5⟩).1, kingCaptureGame.currentPlayer,
        kingCaptureGame.gameOver⟩).gameOver = false ∧
    (kingCaptureGame.playParsed ⟨4, 4⟩ ⟨4, 5⟩).gameOver = false := by
  refine ⟨rfl, rfl, ?_, ?_, ?_, ?_, ?_⟩ <;> decide

/-- Claim C14 on the code: in the position `TestKingCapture` sets up, the square
`(1,5)` holds a White pawn, `IsValidMove (0,4) (1,5)` is false, and after
`MovePiece (0,4) (1,5)` and `CheckGameOver` the flag `gameOver` is false. -/
theorem TestKingCapture_evaluation :
    kingCaptureGame.board.GetPiece ⟨1, 5⟩ = some (Piece.Pawn Color.White) ∧
    kingCaptureGame.IsValidMove ⟨0, 4⟩ ⟨1, 5⟩ = false ∧
    (ChessGame.CheckGameOver
      ⟨(kingCaptureGame.board.MovePiece ⟨0, 4⟩ ⟨1, 5⟩).1, kingCaptureGame.currentPlayer,
        kingCaptureGame.gameOver⟩).gameOver = false := by
  refine ⟨?_, ?_, ?_⟩ <;> decide

/-! ## The parser -/

set_option maxRecDepth 100000 in
theorem Index_columns_lowerOfByte :
    ∀ b : Fin 256, Index (ascii "abcdefgh") (lowerOfByte b) =
      if (97 ≤ b.val ∧ b.val ≤ 104) ∨ (65 ≤ b.val ∧ b.val ≤ 72) then
        (if 97 ≤ b.val then (b.val : Int) - 97 else (b.val : Int) - 65)
      else -1 := by
  decide

set_option maxRecDepth 100000 in
theorem Atoi_single :
    ∀ b : Fin 256, Atoi (stringOfByte b) =
      if 48 ≤ b.val ∧ b.val ≤ 57 then some ((b.val : Int) - 48) else none := by
  decide

/-- Claim C15: for every position `p` with `Row` and `Col` in `[0, 7]`,
`AlgebraicToPosition (PositionToAlgebraic p)` succeeds and returns `p`; the
position `(1,4)` is rendered `e2`, and `e2` parses back to `(1,4)`. -/
theorem algebraic_roundtrip (p : Position)
    (h : (0 ≤ p.Row ∧ p.Row ≤ 7) ∧ (0 ≤ p.Col ∧ p.Col ≤ 7)) :
    ChessGame.AlgebraicToPosition (ChessGame.PositionToAlgebraic p) = Except.ok p ∧
    ChessGame.PositionToAlgebraic ⟨1, 4⟩ = ascii "e2" ∧
    ChessGame.AlgebraicToPosition (ascii "e2") = Except.ok ⟨1, 4⟩ := by
  obtain ⟨r, c⟩ := p
  obtain ⟨⟨h1, h2⟩, h3, h4⟩ := h
  simp only at h1 h2 h3 h4
  interval_cases r <;> interval_cases c <;> exact ⟨rfl, rfl, rfl⟩

/-- Claim C15 at the corner `h8`. -/
theorem algebraic_roundtrip_witness :
    ChessGame.PositionToAlgebraic ⟨7, 7⟩ = ascii "h8" ∧
    ChessGame.AlgebraicToPosition (ChessGame.PositionToAlgebraic ⟨7, 7⟩) = Except.ok ⟨7, 7⟩ :=
  ⟨by rfl, (algebraic_roundtrip ⟨7, 7⟩ (by decide)).1⟩

theorem AlgebraicToPosition_pair (l d : Fin 256) :
    ChessGame.AlgebraicToPosition [l, d] =
      if IsFileLetter l then
        if IsRankDigit d then Except.ok ⟨rankIndex d, fileIndex l⟩
        else Except.error ParseError.invalidRow
      else Except.error ParseError.invalidColumn := by
  simp only [ChessGame.AlgebraicToPosition, Index_columns_lowerOfByte, Atoi_single, IsFileLetter,
    IsRankDigit, fileIndex, rankIndex]
  by_cases hl : (97 ≤ l.val ∧ l.val ≤ 104) ∨ (65 ≤ l.val ∧ l.val ≤ 72)
  · have hne : ¬ ((if 97 ≤ l.val then (l.val : Int) - 97 else (l.val : Int) - 65) = -1) := by
      split <;> omega
    simp only [hl, if_true, hne, if_false]
    by_cases hd : 48 ≤ d.val ∧ d.val ≤ 57
    · simp only [hd, and_self, if_true]
      by_cases hr : 49 ≤ d.val ∧ d.val ≤ 56
      · have : ¬ ((d.val : Int) - 48 < 1 ∨ (d.val : Int) - 48 > 8) := by omega
        simp only [this, if_false, hr, and_self, if_true]
      · have : ((d.val : Int) - 48 < 1 ∨ (d.val : Int) - 48 > 8) := by omega
        simp only [this, if_true, hr, if_false]
    · have hr : ¬ (49 ≤ d.val ∧ d.val ≤ 56) := by omega
      simp only [hd, if_false, hr]
  · simp only [hl, if_false, if_true]

/-- Claim C16: `AlgebraicToPosition s` returns an error when `s` is not exactly
2 bytes long, when its first byte is not a column letter `a` to `h` or `A` to
`H`, and when its second byte is not a digit `1` to `8`; for every other `s` it
returns the position whose row is the digit minus 1 and whose column is the
index of the lower-cased letter in `abcdefgh`.  So it succeeds exactly for those
two-byte strings, and its result is always in bounds. -/
theorem AlgebraicToPosition_spec (s : GoString) :
    (s.length ≠ 2 →
      ChessGame.AlgebraicToPosition s = Except.error ParseError.invalidAlgebraicNotation) ∧
    (∀ l d : Fin 256, s = [l, d] → ¬ IsFileLetter l →
      ChessGame.AlgebraicToPosition s = Except.error ParseError.invalidColumn) ∧
    (∀ l d : Fin 256, s = [l, d] → IsFileLetter l → ¬ IsRankDigit d →
      ChessGame.AlgebraicToPosition s = Except.error ParseError.invalidRow) ∧
    (∀ l d : Fin 256, s = [l, d] → IsFileLetter l → IsRankDigit d →
      ChessGame.AlgebraicToPosition s = Except.ok ⟨rankIndex d, fileIndex l⟩) ∧
    (∀ pos : Position, ChessGame.AlgebraicToPosition s = Except.ok pos →
      (∃ l d : Fin 256, s = [l, d] ∧ IsFileLetter l ∧ IsRankDigit d) ∧
      Board.IsWithinBounds pos.Row pos.Col = true) := by
  refine ⟨?_, ?_, ?_, ?_, ?_⟩
  · intro hlen
    match s, hlen with
    | [], _ => rfl
    | [_], _ => rfl
    | [_, _], h => exact absurd rfl h
    | _ :: _ :: _ :: _, _ => rfl
  · rintro l d rfl hl
    rw [AlgebraicToPosition_pair, if_neg hl]
  · rintro l d rfl hl hd
    rw [AlgebraicToPosition_pair, if_pos hl, if_neg hd]
  · rintro l d rfl hl hd
    rw [AlgebraicToPosition_pair, if_pos hl, if_pos hd]
  · intro pos hpos
    match s, hpos with
    | [l, d], hpos =>
      rw [AlgebraicToPosition_pair] at hpos
      by_cases hl : IsFileLetter l
      · by_cases hd : IsRankDigit d
        · rw [if_pos hl, if_pos hd] at hpos
          cases hpos
          refine ⟨⟨l, d, rfl, hl, hd⟩, ?_⟩
          rw [within_iff]
          simp only [IsFileLetter, IsRankDigit] at hl hd
          simp only [rankIndex, fileIndex]
          split <;> omega
        · rw [if_pos hl, if_neg hd] at hpos
          cases hpos
      · rw [if_neg hl] at hpos
        cases hpos

/-- Claim C16 at `E2`, `e9`, `i2` and `e`. -/
theorem AlgebraicToPosition_spec_witness :
    ChessGame.AlgebraicToPosition (ascii "E2") = Except.ok ⟨1, 4⟩ ∧
    ChessGame.AlgebraicToPosition (ascii "e9") = Except.error ParseError.invalidRow ∧
    ChessGame.AlgebraicToPosition (ascii "i2") = Except.error ParseError.invalidColumn ∧
    ChessGame.AlgebraicToPosition (ascii "e")
      = Except.error ParseError.invalidAlgebraicNotation :=
  ⟨(AlgebraicToPosition_spec (ascii "E2")).2.2.2.1 69 50 (by decide) (by decide) (by decide),
   (AlgebraicToPosition_spec (ascii "e9")).2.2.1 101 57 (by decide) (by decide) (by decide),
   (AlgebraicToPosition_spec (ascii "i2")).2.1 105 50 (by decide) (by decide),
   (AlgebraicToPosition_spec (ascii "e")).1 (by decide)⟩

theorem indexFrom_nonneg_iff (sub : GoString) (s : GoString) :
    ∀ i : Nat, 0 ≤ indexFrom sub i s ↔ sub <:+: s := by
  induction s with
  | nil =>
    intro i
    simp only [indexFrom]
    by_cases h : sub = []
    · simp [h]
    · simp [h]
  | cons b rest ih =>
    intro i
    simp only [indexFrom]
    rw [List.infix_cons_iff]
    by_cases h : sub.isPrefixOf (b :: rest) = true
    · simp only [h, if_true]
      constructor
      · intro _
        exact Or.inl (List.isPrefixOf_iff_prefix.1 h)
      · intro _
        omega
    · simp only [h, Bool.false_eq_true, if_false]
      rw [ih]
      constructor
      · exact Or.inr
      · rintro (h2 | h2)
        · exact absurd (List.isPrefixOf_iff_prefix.2 h2) h
        · exact h2

theorem Contains_iff (s sub : GoString) : Contains s sub = true ↔ sub <:+: s := by
  simp only [Contains, Index, ge_iff_le, decide_eq_true_eq]
  exact indexFrom_nonneg_iff sub s 0

theorem trimLeftFrom_suffix (s : GoString) : ∀ skip : Nat, trimLeftFrom skip s <:+ s := by
  induction s with
  | nil => intro skip; cases skip <;> simp [trimLeftFrom]
  | cons b rest ih =>
    intro skip
    cases skip with
    | zero =>
      simp only [trimLeftFrom]
      split
      · exact List.suffix_refl _
      · exact (ih _).trans (List.suffix_cons b rest)
    | succ n =>
      simp only [trimLeftFrom]
      exact (ih n).trans (List.suffix_cons b rest)

theorem trimRightFrom_suffix (s : GoString) : ∀ skip : Nat, trimRightFrom skip s <:+ s := by
  induction s with
  | nil => intro skip; cases skip <;> simp [trimRightFrom]
  | cons b rest ih =>
    intro skip
    cases skip with
    | zero =>
      simp only [trimRightFrom]
      split
      · exact List.suffix_refl _
      · exact (ih _).trans (List.suffix_cons b rest)
    | succ n =>
      simp only [trimRightFrom]
      exact (ih n).trans (List.suffix_cons b rest)

theorem TrimSpace_within_input (s : GoString) : TrimSpace s <:+: s := by
  unfold TrimSpace
  have h1 := trimLeftFrom_suffix s 0
  have h2 := trimRightFrom_suffix (trimLeftFrom 0 s).reverse 0
  have h3 : (trimRightFrom 0 (trimLeftFrom 0 s).reverse).reverse <+: trimLeftFrom 0 s := by
    have := List.reverse_prefix.2 h2
    simpa using this
  exact h3.isInfix.trans h1.isInfix

theorem Contains_TrimSpace (s sub : GoString) (h : Contains s sub = false) :
    Contains (TrimSpace s) sub = false := by
  by_contra hc
  rw [Bool.not_eq_false, Contains_iff] at hc
  have := (Contains_iff s sub).2 (hc.trans (TrimSpace_within_input s))
  rw [h] at this
  exact Bool.noConfusion this

theorem splitFrom_of_absent (sep s : GoString) :
    ∀ cur : GoString, ¬ sep <:+: s → splitFrom sep 0 cur s = [cur.reverse ++ s] := by
  induction s with
  | nil => intro cur _; simp [splitFrom]
  | cons b rest ih =>
    intro cur h
    rw [List.infix_cons_iff] at h
    have h1 : ¬ sep.isPrefixOf (b :: rest) = true := fun hp =>
      h (Or.inl (List.isPrefixOf_iff_prefix.1 hp))
    simp only [splitFrom, h1, Bool.false_eq_true, if_false]
    rw [ih (b :: cur) (fun hi => h (Or.inr hi))]
    simp

theorem Split_of_not_Contains (s sep : GoString) (h : Contains s sep = false) :
    Split s sep = [s] := by
  have hn : ¬ sep <:+: s := by
    intro hi
    rw [(Contains_iff s sep).2 hi] at h
    exact Bool.noConfusion h
  simp [Split, splitFrom_of_absent sep s [] hn]

/-- Claim C18: for every input that contains neither a comma nor the substring
`to`, such as the literal `invalid_input`, `ParseInput` returns an error, never
a pair of positions, and the turn that reads it leaves the game unchanged. -/
theorem ParseInput_rejects (input : GoString)
    (hcomma : Contains input (ascii ",") = false)
    (hto : Contains input (ascii "to") = false) :
    ChessGame.ParseInput input = Except.error ParseError.invalidInputFormat ∧
    (∀ cg : ChessGame, cg.PlayTurn (some input) = cg) ∧
    ChessGame.ParseInput (ascii "invalid_input")
      = Except.error ParseError.invalidInputFormat := by
  have h : ChessGame.ParseInput input = Except.error ParseError.invalidInputFormat := by
    have h1 := Contains_TrimSpace input _ hcomma
    have h2 := Contains_TrimSpace input _ hto
    simp only [ChessGame.ParseInput, h1, h2, Bool.false_eq_true, if_false]
    rw [Split_of_not_Contains _ _ h1]
    rfl
  refine ⟨h, ?_, by rfl⟩
  intro cg
  simp only [ChessGame.PlayTurn, h]

/-- Claim C18 at the literal `invalid_input` of the test. -/
theorem ParseInput_rejects_witness :
    Contains (ascii "invalid_input") (ascii ",") = false ∧
    Contains (ascii "invalid_input") (ascii "to") = false ∧
    NewChessGame.PlayTurn (some (ascii "invalid_input")) = NewChessGame :=
  ⟨by decide, by decide,
   (ParseInput_rejects (ascii "invalid_input") (by decide) (by decide)).2.1 NewChessGame⟩

/-! ### The two algebraic forms -/

theorem spaceRuneLen_printable (b : Fin 256) (rest : GoString) (h : IsPrintable b) :
    spaceRuneLen (b :: rest) = 0 := by
  simp only [IsPrintable] at h
  have h1 : ¬ spaceRune1 b.val := by simp only [spaceRune1]; omega
  have h2 : ∀ y, ¬ spaceRune2 b.val y := by intro y; simp only [spaceRune2]; omega
  have h3 : ∀ y z, ¬ spaceRune3 b.val y z := by intro y z; simp only [spaceRune3]; omega
  match rest with
  | [] => simp [spaceRuneLen, h1]
  | [b1] => simp [spaceRuneLen, h1, h2]
  | b1 :: b2 :: _ => simp [spaceRuneLen, h1, h2, h3]

theorem spaceRuneLenRev_printable (b : Fin 256) (rest : GoString) (h : IsPrintable b) :
    spaceRuneLenRev (b :: rest) = 0 := by
  simp only [IsPrintable] at h
  have h1 : ¬ spaceRune1 b.val := by simp only [spaceRune1]; omega
  have h2 : ∀ y, ¬ spaceRune2 y b.val := by intro y; simp only [spaceRune2]; omega
  have h3 : ∀ y z, ¬ spaceRune3 z y b.val := by intro y z; simp only [spaceRune3]; omega
  match rest with
  | [] => simp [spaceRuneLenRev, h1]
  | [b1] => simp [spaceRuneLenRev, h1, h2]
  | b1 :: b2 :: _ => simp [spaceRuneLenRev, h1, h2, h3]

theorem trimLeftFrom_printable (b : Fin 256) (rest : GoString) (h : IsPrintable b) :
    trimLeftFrom 0 (b :: rest) = b :: rest := by
  simp [trimLeftFrom, spaceRuneLen_printable b rest h]

theorem trimRightFrom_printable (b : Fin 256) (rest : GoString) (h : IsPrintable b) :
    trimRightFrom 0 (b :: rest) = b :: rest := by
  simp [trimRightFrom, spaceRuneLenRev_printable b rest h]

theorem TrimSpace_printable_ends (first last : Fin 256) (mid : GoString)
    (hf : IsPrintable first) (hl : IsPrintable last) :
    TrimSpace (first :: (mid ++ [last])) = first :: (mid ++ [last]) := by
  unfold TrimSpace
  rw [trimLeftFrom_printable first _ hf]
  have hr : (first :: (mid ++ [last])).reverse = last :: (mid.reverse ++ [first]) := by simp
  rw [hr, trimRightFrom_printable last _ hl, ← hr, List.reverse_reverse]

theorem TrimSpace_printable (s : GoString) (h : ∀ x ∈ s, IsPrintable x) : TrimSpace s = s := by
  match s, h with
  | [], _ => rfl
  | [b], h =>
    unfold TrimSpace
    rw [trimLeftFrom_printable b _ (h b (by simp))]
    simp only [List.reverse_cons, List.reverse_nil, List.nil_append]
    rw [trimRightFrom_printable b _ (h b (by simp))]
    rfl
  | b :: c :: rest, h =>
    have hne : c :: rest ≠ [] := by simp
    have hsplit : b :: c :: rest = b :: ((c :: rest).dropLast ++ [(c :: rest).getLast hne]) := by
      rw [List.dropLast_append_getLast hne]
    rw [hsplit]
    apply TrimSpace_printable_ends
    · exact h b (by simp)
    · exact h _ (List.mem_cons_of_mem _ (List.getLast_mem hne))

theorem fieldsFrom_printable (s : GoString) (h : ∀ x ∈ s, IsPrintable x) :
    ∀ cur : GoString, cur ≠ [] → fieldsFrom 0 cur s = [cur.reverse ++ s] := by
  induction s with
  | nil => intro cur hc; simp [fieldsFrom, hc]
  | cons b rest ih =>
    intro cur _
    have hb := spaceRuneLen_printable b rest (h b (by simp))
    simp only [fieldsFrom, hb, if_true]
    rw [ih (fun x hx => h x (List.mem_cons_of_mem _ hx)) (b :: cur) (by simp)]
    simp

theorem Fields_printable (b : Fin 256) (rest : GoString)
    (h : ∀ x ∈ b :: rest, IsPrintable x) : Fields (b :: rest) = [b :: rest] := by
  have hb := spaceRuneLen_printable b rest (h b (by simp))
  simp only [Fields, fieldsFrom, hb, if_true]
  rw [fieldsFrom_printable rest (fun x hx => h x (List.mem_cons_of_mem _ hx)) [b] (by simp)]
  simp

theorem ParseInput_comma_joined (a b : GoString) (ha : ∀ x ∈ a, IsPrintable x)
    (hb : ∀ x ∈ b, IsPrintable x) :
    ChessGame.ParseInput (a ++ ascii "," ++ b) =
      Except.error ParseError.invalidInputFormat := by
  have hascii : ascii "," = [44] := by decide
  have hall : ∀ x ∈ a ++ ascii "," ++ b, IsPrintable x := by
    intro x hx
    rw [hascii] at hx
    simp only [List.mem_append, List.mem_singleton] at hx
    rcases hx with (hx | rfl) | hx
    · exact ha x hx
    · exact ⟨by decide, by decide⟩
    · exact hb x hx
  have hcontains : Contains (a ++ ascii "," ++ b) (ascii ",") = true :=
    (Contains_iff _ _).2 ⟨a, b, rfl⟩
  simp only [ChessGame.ParseInput, TrimSpace_printable _ hall, hcontains, if_true]
  have hne : a ++ ascii "," ++ b ≠ [] := by rw [hascii]; simp
  match hs : a ++ ascii "," ++ b, hne with
  | c :: rest, _ =>
    rw [hs] at hall
    rw [Fields_printable c rest hall]
    rfl


theorem spaceRune1_space : spaceRune1 ((32 : Fin 256)).val := by
  simp only [spaceRune1]
  decide

theorem trimLeftFrom_space (rest : GoString) :
    trimLeftFrom 0 ((32 : Fin 256) :: rest) = trimLeftFrom 0 rest := by
  have h : spaceRuneLen ((32 : Fin 256) :: rest) = 1 := by
    simp only [spaceRuneLen, spaceRune1_space, if_true]
  simp only [trimLeftFrom, h, OfNat.ofNat_ne_zero, if_false, Nat.sub_self]
  simp

theorem trimRightFrom_space (rest : GoString) :
    trimRightFrom 0 ((32 : Fin 256) :: rest) = trimRightFrom 0 rest := by
  have h : spaceRuneLenRev ((32 : Fin 256) :: rest) = 1 := by
    simp only [spaceRuneLenRev, spaceRune1_space, if_true]
  simp only [trimRightFrom, h, OfNat.ofNat_ne_zero, if_false, Nat.sub_self]
  simp

theorem TrimSpace_square_left (l d : Fin 256) (hl : IsPrintable l) (hd : IsPrintable d) :
    TrimSpace [l, d, 32] = [l, d] := by
  unfold TrimSpace
  rw [trimLeftFrom_printable l _ hl]
  have hr : ([l, d, 32] : GoString).reverse = [32, d, l] := rfl
  rw [hr, trimRightFrom_space, trimRightFrom_printable d _ hd]
  rfl

theorem TrimSpace_square_right (l d : Fin 256) (hl : IsPrintable l) (hd : IsPrintable d) :
    TrimSpace [32, l, d] = [l, d] := by
  unfold TrimSpace
  rw [trimLeftFrom_space, trimLeftFrom_printable l _ hl]
  have hr : ([l, d] : GoString).reverse = [d, l] := rfl
  rw [hr, trimRightFrom_printable d _ hd]
  rfl

theorem ParseInput_to_joined (l1 d1 l2 d2 : Fin 256)
    (hl1 : IsFileLetter l1) (hd1 : IsRankDigit d1) (hl2 : IsFileLetter l2)
    (hd2 : IsRankDigit d2) :
    ChessGame.ParseInput ([l1, d1] ++ ascii " to " ++ [l2, d2]) =
      Except.ok (⟨rankIndex d1, fileIndex l1⟩, ⟨rankIndex d2, fileIndex l2⟩) := by
  have hascii : ascii " to " = [32, 116, 111, 32] := by decide
  have hcomma : ascii "," = [44] := by decide
  have hto : ascii "to" = [116, 111] := by decide
  simp only [IsFileLetter, IsRankDigit] at hl1 hd1 hl2 hd2
  have pl1 : IsPrintable l1 := by simp only [IsPrintable]; omega
  have pd1 : IsPrintable d1 := by simp only [IsPrintable]; omega
  have pl2 : IsPrintable l2 := by simp only [IsPrintable]; omega
  have pd2 : IsPrintable d2 := by simp only [IsPrintable]; omega
  have hs : [l1, d1] ++ ascii " to " ++ [l2, d2] = l1 :: ([d1, 32, 116, 111, 32, l2] ++ [d2]) := by
    rw [hascii]; rfl
  have ne : ∀ (x : Fin 256) (n : Nat) (hn : n < 256), x.val ≠ n → ¬ ((⟨n, hn⟩ : Fin 256) = x) := by
    intro x n hn hx he
    exact hx (by rw [← he])
  have c44 : ∀ x : Fin 256, x.val ≠ 44 → ((44 : Fin 256) == x) = false := by
    intro x hx
    exact beq_false_of_ne (ne x 44 (by decide) hx)
  have c116 : ∀ x : Fin 256, x.val ≠ 116 → ((116 : Fin 256) == x) = false := by
    intro x hx
    exact beq_false_of_ne (ne x 116 (by decide) hx)
  have hnocomma : Contains (l1 :: ([d1, 32, 116, 111, 32, l2] ++ [d2])) [44] = false := by
    simp [Contains, Index, indexFrom, List.isPrefixOf, c44 l1 (by omega), c44 d1 (by omega),
      c44 l2 (by omega), c44 d2 (by omega)]
  have hhasto : Contains (l1 :: ([d1, 32, 116, 111, 32, l2] ++ [d2])) [116, 111] = true :=
    (Contains_iff _ _).2 ⟨[l1, d1, 32], [32, l2, d2], rfl⟩
  have hsplit : Split (l1 :: ([d1, 32, 116, 111, 32, l2] ++ [d2])) [116, 111] =
      [[l1, d1, 32], [32, l2, d2]] := by
    simp [Split, splitFrom, List.isPrefixOf, c116 l1 (by omega), c116 d1 (by omega),
      c116 l2 (by omega), c116 d2 (by omega)]
  rw [hs]
  simp only [ChessGame.ParseInput, TrimSpace_printable_ends l1 d2 _ pl1 pd2, hcomma, hto,
    hnocomma, hhasto, hsplit, Bool.false_eq_true, if_false, if_true, parseAlgebraicParts,
    TrimSpace_square_left l1 d1 pl1 pd1, TrimSpace_square_right l2 d2 pl2 pd2,
    AlgebraicToPosition_pair]
  have q1 : IsFileLetter l1 := hl1
  have q2 : IsRankDigit d1 := hd1
  have q3 : IsFileLetter l2 := hl2
  have q4 : IsRankDigit d2 := hd2
  simp only [q1, q2, q3, q4, if_true]

/-- Claim C17 on the code: for all squares written as a file letter and a rank
digit `1` to `8`, the form with ` to ` parses, without error, to the positions
`AlgebraicToPosition` gives for the two squares, and the form with a comma is
refused with `invalid input format`: the comma sends the input to the
coordinate branch, where `strings.Fields` finds one field instead of two.  In
particular `e2 to e4` gives `(1,4)` and `(3,4)`, and `e2,e4` gives an error. -/
theorem ParseInput_algebraic_forms (l1 d1 l2 d2 : Fin 256)
    (hl1 : IsFileLetter l1) (hd1 : IsRankDigit d1) (hl2 : IsFileLetter l2)
    (hd2 : IsRankDigit d2) :
    ChessGame.AlgebraicToPosition [l1, d1] = Except.ok ⟨rankIndex d1, fileIndex l1⟩ ∧
    ChessGame.AlgebraicToPosition [l2, d2] = Except.ok ⟨rankIndex d2, fileIndex l2⟩ ∧
    ChessGame.ParseInput ([l1, d1] ++ ascii " to " ++ [l2, d2]) =
      Except.ok (⟨rankIndex d1, fileIndex l1⟩, ⟨rankIndex d2, fileIndex l2⟩) ∧
    ChessGame.ParseInput ([l1, d1] ++ ascii "," ++ [l2, d2]) =
      Except.error ParseError.invalidInputFormat ∧
    ChessGame.ParseInput (ascii "e2 to e4") = Except.ok (⟨1, 4⟩, ⟨3, 4⟩) ∧
    ChessGame.ParseInput (ascii "e2,e4") = Except.error ParseError.invalidInputFormat := by
  have hp : ∀ l d : Fin 256, IsFileLetter l → IsRankDigit d → ∀ x ∈ [l, d], IsPrintable x := by
    intro l d hl hd x hx
    simp only [IsFileLetter, IsRankDigit] at hl hd
    simp only [List.mem_cons, List.mem_singleton, List.not_mem_nil, or_false] at hx
    rcases hx with rfl | rfl <;> simp only [IsPrintable] <;> omega
  refine ⟨?_, ?_, ParseInput_to_joined l1 d1 l2 d2 hl1 hd1 hl2 hd2,
    ParseInput_comma_joined [l1, d1] [l2, d2] (hp l1 d1 hl1 hd1) (hp l2 d2 hl2 hd2),
    by decide, by decide⟩
  · rw [AlgebraicToPosition_pair, if_pos hl1, if_pos hd1]
  · rw [AlgebraicToPosition_pair, if_pos hl2, if_pos hd2]

/-- Claim C17 on the code, at the squares `a7` and `h1`: `a7,h1` is refused. -/
theorem ParseInput_algebraic_forms_witness :
    ChessGame.ParseInput (ascii "a7,h1") = Except.error ParseError.invalidInputFormat ∧
    ChessGame.ParseInput (ascii "a7 to h1") = Except.ok (⟨6, 0⟩, ⟨0, 7⟩) :=
  ⟨(ParseInput_algebraic_forms 97 55 104 49 (by decide) (by decide) (by decide)
      (by decide)).2.2.2.1,
   (ParseInput_algebraic_forms 97 55 104 49 (by decide) (by decide) (by decide)
      (by decide)).2.2.1⟩

end ChessLogic
